import Mathlib

/-!
Verification of the HTML-diff core: tokenizers, LCS alignment variants,
change grouping and rendering, embedded shallowly from the JavaScript
sources (`merged_view.js`, `compare_view.js` and the two unnamed parts).
Strings are modelled as `List Char`; the JS regex-driven tokenizers are
modelled by explicit leftmost-match scanning with the same alternative
order and greediness as the source regexes.
-/

namespace HtmlDiff

/-- A JS string, modelled as a list of characters. -/
abbrev Str := List Char

/-- JS `\w` character class: ASCII letters, digits and underscore. -/
def isWordCh (c : Char) : Bool :=
  c.isAlphanum || c = '_'

/-- JS `\s` character class (whitespace, including the Unicode spaces). -/
def isSpaceCh (c : Char) : Bool :=
  c = ' ' || c = '\t' || c = '\n' || c = '\r' || c.toNat = 0x0B || c.toNat = 0x0C ||
  c.toNat = 0xA0 || c.toNat = 0x1680 || (0x2000 ≤ c.toNat && c.toNat ≤ 0x200A) ||
  c.toNat = 0x2028 || c.toNat = 0x2029 || c.toNat = 0x202F || c.toNat = 0x205F ||
  c.toNat = 0x3000 || c.toNat = 0xFEFF

/-- The quote class `['"]` used by the tokenizer regex
(39 is the code of the single-quote character). -/
def isQuoteCh (c : Char) : Bool :=
  c.toNat = 39 || c = '"'

/-- The punctuation class `[^\w\s<>]` of the tokenizer regex. -/
def isPunctCh (c : Char) : Bool :=
  !(isWordCh c) && !(isSpaceCh c) && !(c = '<') && !(c = '>')

/-- Alternative `<[^>]+>` of the tokenizer regex, tried at the current position:
a `<`, a maximal nonempty run of non-`>` characters, then a `>`.  Returns the
matched token and the remainder. -/
def matchTag (s : Str) : Option (Str × Str) :=
  match s with
  | [] => none
  | c :: rest =>
    if c = '<' then
      if (rest.takeWhile (fun c => !(c = '>'))).isEmpty then none
      else
        match rest.dropWhile (fun c => !(c = '>')) with
        | '>' :: after => some (c :: (rest.takeWhile (fun c => !(c = '>')) ++ ['>']), after)
        | _ => none
    else none

/-- The optional group `(?:=['"][^'"]*['"])?` of the word alternative: an `=`,
an opening quote, a maximal run of non-quote characters, and a closing quote
(either quote character, as in the source character class). -/
def matchWordVal (rem : Str) : Option (Str × Str) :=
  match rem with
  | e :: q :: rest2 =>
    if e = '=' ∧ isQuoteCh q then
      match rest2.dropWhile (fun c => !(isQuoteCh c)) with
      | q2 :: after =>
        some (e :: q :: (rest2.takeWhile (fun c => !(isQuoteCh c)) ++ [q2]), after)
      | [] => none
    else none
  | _ => none

/-- One attempt of the tokenizer regex
`(<[^>]+>)|(\w+(?:=['"][^'"]*['"])?)|(\s+)|([^\w\s<>]+)` at the current
position, with the source's alternative order.  `none` means no alternative
matches here (the scan skips one character, as JS global matching does). -/
def matchAt (s : Str) : Option (Str × Str) :=
  match s with
  | [] => none
  | c :: _ =>
    if c = '<' then matchTag s
    else if isWordCh c then
      match matchWordVal (s.dropWhile isWordCh) with
      | some (g, after) => some (s.takeWhile isWordCh ++ g, after)
      | none => some (s.takeWhile isWordCh, s.dropWhile isWordCh)
    else if isSpaceCh c then some (s.takeWhile isSpaceCh, s.dropWhile isSpaceCh)
    else if c = '>' then none
    else some (s.takeWhile isPunctCh, s.dropWhile isPunctCh)

/-- The JS global-match scan `str.match(re)`: repeatedly take the leftmost
match, skipping characters where no alternative matches.  Fuelled so that it
computes by kernel reduction; `fuel ≥ length of the input` is always enough
because every step consumes at least one character. -/
def scanTokF : Nat → Str → List Str
  | 0, _ => []
  | _, [] => []
  | fuel + 1, s@(_ :: rest) =>
    match matchAt s with
    | some (t, r) => t :: scanTokF fuel r
    | none => scanTokF fuel rest

/-- `tokenize` of `merged_view.js`: `str.match(re) || []`. -/
def tokenize (s : Str) : List Str :=
  scanTokF s.length s

/-- `tokenize` of `compare_view.js` and of the unnamed side-by-side variant:
the same match followed by `.filter(token => token)`, which removes empty
strings. -/
def tokenizeCmp (s : Str) : List Str :=
  (tokenize s).filter (fun t => !t.isEmpty)

/-- Concatenation of a list of strings (`Array.prototype.join('')`). -/
def catS : List Str → Str
  | [] => []
  | t :: ts => t ++ catS ts

/-- `getTagName` of the unnamed merged variant: first match of `<\/?(\w+)`
in the tag string, lower-cased; `null` when there is none. -/
def getTagName : Str → Option Str
  | [] => none
  | '<' :: rest =>
    match rest with
    | '/' :: c :: r2 =>
      if isWordCh c then some (((c :: r2).takeWhile isWordCh).map Char.toLower)
      else getTagName rest
    | c :: _ =>
      if isWordCh c then some ((rest.takeWhile isWordCh).map Char.toLower)
      else getTagName rest
    | [] => none
  | _ :: rest => getTagName rest

/-- A token of `tokenizeHTML` (unnamed merged variant): the exact substring
plus the tag classification fields computed at construction. -/
structure Tok where
  content : Str
  isTag : Bool
  isClosingTag : Bool
  tagName : Option Str
deriving DecidableEq, Repr

/-- Construction of a `tokenizeHTML` token from its matched substring:
`isTag` is `startsWith('<')`, `isClosingTag` is `startsWith('</')`, and
`tagName` is `getTagName` for tag tokens and `null` otherwise. -/
def mkTok (t : Str) : Tok :=
  let tag := match t with | '<' :: _ => true | _ => false
  { content := t
    isTag := tag
    isClosingTag := match t with | '<' :: '/' :: _ => true | _ => false
    tagName := if tag then getTagName t else none }

/-- `token.trim()` is truthy: the token has a non-whitespace character. -/
def hasVisible (t : Str) : Bool :=
  t.any (fun c => !(isSpaceCh c))

/-- One attempt of the `tokenizeHTML` regex `<[^>]+>|[^<]+` at the current
position. -/
def matchAtH (s : Str) : Option (Str × Str) :=
  match s with
  | [] => none
  | c :: _ =>
    if c = '<' then matchTag s
    else some (s.takeWhile (fun x => !(x = '<')), s.dropWhile (fun x => !(x = '<')))

/-- The `tokenizeHTML` exec loop: leftmost matches, keeping only tokens whose
`trim()` is nonempty.  Fuelled like `scanTokF`. -/
def scanHF : Nat → Str → List Tok
  | 0, _ => []
  | _, [] => []
  | fuel + 1, s@(_ :: rest) =>
    match matchAtH s with
    | some (t, r) => (if hasVisible t then [mkTok t] else []) ++ scanHF fuel r
    | none => scanHF fuel rest

/-- `tokenizeHTML` of the unnamed merged variant. -/
def tokenizeHTML (s : Str) : List Tok :=
  scanHF s.length s

/-- `isAttributeModification`: both tokens are non-closing tags with the same
(possibly null) tag name and different content. -/
def isAttributeModification (o n : Tok) : Bool :=
  if !o.isTag || !n.isTag || o.isClosingTag || n.isClosingTag then false
  else decide (o.tagName = n.tagName) && !(decide (o.content = n.content))

/-- Length of the longest common subsequence, fuelled.  `dp[i][j]` of the JS
DP table is `lcs` of the suffixes from `i` and `j`: the table is filled from
high indices by exactly this recurrence. -/
def lcsF {α : Type} [DecidableEq α] : Nat → List α → List α → Nat
  | 0, _, _ => 0
  | fuel + 1, A, B =>
    match A, B with
    | [], _ => 0
    | _, [] => 0
    | a :: as, b :: bs =>
      if a = b then lcsF fuel as bs + 1
      else max (lcsF fuel as (b :: bs)) (lcsF fuel (a :: as) bs)

/-- LCS length with sufficient fuel. -/
def lcs {α : Type} [DecidableEq α] (A B : List α) : Nat :=
  lcsF (A.length + B.length) A B

/-- The operation tags pushed by the diff algorithms (`'equal'`, `'delete'`,
`'insert'`, and `'modify'`/`'add'` in the attribute-aware variant). -/
inductive OpType where
  | equal
  | delete
  | insert
  | modify
  | add
deriving DecidableEq, Repr

/-- An operation `[type, payload]`. -/
abbrev Op := OpType × Str

/-- Backtracking loop of `diffTokens` in `merged_view.js`, on the token
suffixes from the cursor `(i, j)`: `dp[i][j+1]` is `lcs` of the suffix of `A`
from `i` and the suffix of `B` from `j+1`, etc.  Insert is chosen when
`j < m && (i === n || dp[i][j+1] >= dp[i+1][j])`. -/
def backtrackMF : Nat → List Str → List Str → List Op
  | 0, _, _ => []
  | fuel + 1, A, B =>
    match A, B with
    | [], [] => []
    | [], b :: bs => (OpType.insert, b) :: backtrackMF fuel [] bs
    | a :: as, [] => (OpType.delete, a) :: backtrackMF fuel as []
    | a :: as, b :: bs =>
      if a = b then (OpType.equal, a) :: backtrackMF fuel as bs
      else if lcs (a :: as) bs ≥ lcs as (b :: bs) then
        (OpType.insert, b) :: backtrackMF fuel (a :: as) bs
      else (OpType.delete, a) :: backtrackMF fuel as (b :: bs)

/-- `diffTokens` of `merged_view.js` on token sequences. -/
def diffM (A B : List Str) : List Op :=
  backtrackMF (A.length + B.length) A B

/-- `diffTokens` of `merged_view.js`. -/
def diffTokensM (a b : Str) : List Op :=
  diffM (tokenize a) (tokenize b)

/-- LCS on token contents: the DP recurrence of `diffHTMLTokens` compares
`baseTokens[i].content === currentTokens[j].content`. -/
def lcsH (A B : List Tok) : Nat :=
  lcs (A.map Tok.content) (B.map Tok.content)

/-- Backtracking loop of `diffHTMLTokens` (unnamed merged variant): equality
on contents, then the attribute-modification check, then the `add`/`delete`
choice by `j < m && (i === n || dp[i][j+1] >= dp[i+1][j])`. -/
def backHF : Nat → List Tok → List Tok → List Op
  | 0, _, _ => []
  | fuel + 1, A, B =>
    match A, B with
    | [], [] => []
    | [], b :: bs => (OpType.add, b.content) :: backHF fuel [] bs
    | a :: as, [] => (OpType.delete, a.content) :: backHF fuel as []
    | a :: as, b :: bs =>
      if a.content = b.content then (OpType.equal, b.content) :: backHF fuel as bs
      else if isAttributeModification a b then
        (OpType.modify, b.content) :: backHF fuel as bs
      else if lcsH (a :: as) bs ≥ lcsH as (b :: bs) then
        (OpType.add, b.content) :: backHF fuel (a :: as) bs
      else (OpType.delete, a.content) :: backHF fuel as (b :: bs)

/-- `diffHTMLTokens` on token sequences. -/
def diffH (A B : List Tok) : List Op :=
  backHF (A.length + B.length) A B

/-- `diffHTMLTokens` of the unnamed merged variant. -/
def diffHTMLTokens (a b : Str) : List Op :=
  diffH (tokenizeHTML a) (tokenizeHTML b)

/-- The inner look-ahead loop of `diffTokens` in `compare_view.js` (and the
unnamed side-by-side variant): starting from the block anchor `(i, j)`, walk
`(iEnd, jEnd)` while both are in range and the tokens differ, advancing
`iEnd` exactly when `dp[iEnd+1][j] > dp[i][jEnd+1]` (note the mixed indices:
`j` and `i` are the anchor, not the cursor), else advancing `jEnd`. -/
def lookF : Nat → List Str → List Str → Nat → Nat → Nat → Nat → Nat × Nat
  | 0, _, _, _, _, iE, jE => (iE, jE)
  | fuel + 1, A, B, i, j, iE, jE =>
    if iE < A.length ∧ jE < B.length ∧ ¬(A.getD iE [] = B.getD jE []) then
      if lcs (A.drop (iE + 1)) (B.drop j) > lcs (A.drop i) (B.drop (jE + 1)) then
        lookF fuel A B i j (iE + 1) jE
      else lookF fuel A B i j iE (jE + 1)
    else (iE, jE)

/-- The look-ahead loop with sufficient fuel. -/
def look (A B : List Str) (i j iE jE : Nat) : Nat × Nat :=
  lookF (A.length + B.length) A B i j iE jE

/-- Outer backtracking loop of `diffTokens` in `compare_view.js`: on equal
tokens emit `equal`; otherwise find the end of the differing block with the
look-ahead, join the deleted and added slices, and push `delete`/`insert`
only when the joined strings are truthy (nonempty).  After the loop the
remaining tails are pushed as one `delete` and/or one `insert`. -/
def backCF : Nat → List Str → List Str → Nat → Nat → List Op
  | 0, _, _, _, _ => []
  | fuel + 1, A, B, i, j =>
    if i < A.length ∧ j < B.length then
      if A.getD i [] = B.getD j [] then
        (OpType.equal, A.getD i []) :: backCF fuel A B (i + 1) (j + 1)
      else
        (if (catS ((A.drop i).take ((look A B i j i j).1 - i))).isEmpty then []
          else [(OpType.delete, catS ((A.drop i).take ((look A B i j i j).1 - i)))]) ++
          (if (catS ((B.drop j).take ((look A B i j i j).2 - j))).isEmpty then []
            else [(OpType.insert, catS ((B.drop j).take ((look A B i j i j).2 - j)))]) ++
          backCF fuel A B (look A B i j i j).1 (look A B i j i j).2
    else
      (if i < A.length then [(OpType.delete, catS (A.drop i))] else []) ++
        (if j < B.length then [(OpType.insert, catS (B.drop j))] else [])

/-- `diffTokens` of `compare_view.js` on token sequences. -/
def diffC (A B : List Str) : List Op :=
  backCF (A.length + B.length + 1) A B 0 0

/-- `diffTokens` of `compare_view.js` (and of the unnamed side-by-side
variant, whose `diffTokens` is identical). -/
def diffTokensC (a b : Str) : List Op :=
  diffC (tokenizeCmp a) (tokenizeCmp b)

/-- `t` is obtained from `s` by deleting only characters satisfying `P`
(in order, keeping everything else). -/
inductive DelOnly (P : Char → Prop) : Str → Str → Prop
  | nil : DelOnly P [] []
  | keep (c : Char) {s t : Str} : DelOnly P s t → DelOnly P (c :: s) (c :: t)
  | del (c : Char) {s t : Str} : P c → DelOnly P s t → DelOnly P (c :: s) t

/-- Concatenation of the payloads of the `equal` and `delete` operations,
in order. -/
def edPayload (d : List Op) : Str :=
  catS ((d.filter
    (fun o => decide (o.1 = OpType.equal) || decide (o.1 = OpType.delete))).map Prod.snd)

/-- Concatenation of the payloads of the `equal` and `insert` operations,
in order. -/
def eiPayload (d : List Op) : Str :=
  catS ((d.filter
    (fun o => decide (o.1 = OpType.equal) || decide (o.1 = OpType.insert))).map Prod.snd)

/-- One global single-character replace, `s.replace(/c/g, r)`. -/
def replAll (c : Char) (r : Str) : Str → Str
  | [] => []
  | x :: xs => (if x = c then r else [x]) ++ replAll c r xs

/-- The entity `&amp;`. -/
def ampStr : Str := ['&', 'a', 'm', 'p', ';']

/-- The entity `&lt;`. -/
def ltStr : Str := ['&', 'l', 't', ';']

/-- The entity `&gt;`. -/
def gtStr : Str := ['&', 'g', 't', ';']

/-- `esc` of `compare_view.js` (and the unnamed side-by-side variant):
`s.replace(/&/g, "&amp;").replace(/</g, "&lt;").replace(/>/g, "&gt;")`
(the `if (!s) return ''` guard is the identity on the empty string). -/
def esc (s : Str) : Str :=
  replAll '>' gtStr (replAll '<' ltStr (replAll '&' ampStr s))

/-- Character-wise view of `esc`. -/
def escChar (x : Char) : Str :=
  if x = '&' then ampStr else if x = '<' then ltStr else if x = '>' then gtStr else [x]

/-- `esc` as a character-wise map. -/
def escMap : Str → Str
  | [] => []
  | x :: xs => escChar x ++ escMap xs

/-- The string is a concatenation of non-`&` characters and whole entities
`&amp;`, `&lt;`, `&gt;`: every `&` in it begins an entity (no raw ampersand
outside entity-escaped form). -/
inductive AmpSafe : Str → Prop
  | nil : AmpSafe []
  | amp {r : Str} : AmpSafe r → AmpSafe (ampStr ++ r)
  | ltc {r : Str} : AmpSafe r → AmpSafe (ltStr ++ r)
  | gtc {r : Str} : AmpSafe r → AmpSafe (gtStr ++ r)
  | other {c : Char} {r : Str} : ¬(c = '&') → AmpSafe r → AmpSafe (c :: r)

/-- The change kinds pushed by `renderSideBySide` (`'change'` for a paired
delete+insert, `'delete'`, `'insert'`). -/
inductive ChKind where
  | pair
  | delOnly
  | insOnly
deriving DecidableEq, Repr

/-- A change record `{ type, delId, addId }` pushed into `allChanges`. -/
structure Change where
  kind : ChKind
  delId : Str
  addId : Str
deriving DecidableEq, Repr

/-- Decimal rendering of a natural number (the template interpolation
`${changeCounter}`), fuelled. -/
def natDecF : Nat → Nat → Str
  | 0, _ => []
  | f + 1, n =>
    if n < 10 then [Nat.digitChar n]
    else natDecF f (n / 10) ++ [Nat.digitChar (n % 10)]

/-- Decimal rendering with sufficient fuel. -/
def natDec (n : Nat) : Str :=
  natDecF (n + 1) n

/-- The identifier `change-${k}${sfx}` with `sfx` one of `-del`, `-add`. -/
def mkId (k : Nat) (sfx : Str) : Str :=
  ['c', 'h', 'a', 'n', 'g', 'e', '-'] ++ natDec k ++ sfx

/-- The suffix `-del`. -/
def delSfx : Str := ['-', 'd', 'e', 'l']

/-- The suffix `-add`. -/
def addSfx : Str := ['-', 'a', 'd', 'd']

/-- `<span class="diff-deleted" id="${id}">${content}</span>`. -/
def delSpan (id content : Str) : Str :=
  "<span class=\"diff-deleted\" id=\"".data ++ id ++ "\">".data ++ content ++ "</span>".data

/-- `<span class="diff-added" id="${id}">${content}</span>`. -/
def addSpan (id content : Str) : Str :=
  "<span class=\"diff-added\" id=\"".data ++ id ++ "\">".data ++ content ++ "</span>".data

/-- `<span class="diff-placeholder" id="${id}">&nbsp;</span>`. -/
def phSpan (id : Str) : Str :=
  "<span class=\"diff-placeholder\" id=\"".data ++ id ++ "\">".data ++ "&nbsp;".data ++
    "</span>".data

/-- The grouping loop of `renderSideBySide` in the unnamed side-by-side
variant, carrying the change counter: a `delete` immediately followed by an
`insert` becomes one `change` pair; a lone `delete` (`insert`) renders a
placeholder on the opposite pane; `equal` (the `else` branch) appends the
escaped payload to both panes and produces no change.  Returns
`(baselineContent, currentContent, allChanges)`. -/
def groupP0 : Nat → List Op → Str × Str × List Change
  | _, [] => ([], [], [])
  | k, (OpType.delete, v) :: (OpType.insert, w) :: rest =>
    (delSpan (mkId k delSfx) (esc v) ++ (groupP0 (k + 1) rest).1,
      addSpan (mkId k addSfx) (esc w) ++ (groupP0 (k + 1) rest).2.1,
      ⟨ChKind.pair, mkId k delSfx, mkId k addSfx⟩ :: (groupP0 (k + 1) rest).2.2)
  | k, (OpType.delete, v) :: rest =>
    (delSpan (mkId k delSfx) (esc v) ++ (groupP0 (k + 1) rest).1,
      phSpan (mkId k addSfx) ++ (groupP0 (k + 1) rest).2.1,
      ⟨ChKind.delOnly, mkId k delSfx, mkId k addSfx⟩ :: (groupP0 (k + 1) rest).2.2)
  | k, (OpType.insert, v) :: rest =>
    (phSpan (mkId k delSfx) ++ (groupP0 (k + 1) rest).1,
      addSpan (mkId k addSfx) (esc v) ++ (groupP0 (k + 1) rest).2.1,
      ⟨ChKind.insOnly, mkId k delSfx, mkId k addSfx⟩ :: (groupP0 (k + 1) rest).2.2)
  | k, (_, v) :: rest =>
    (esc v ++ (groupP0 k rest).1, esc v ++ (groupP0 k rest).2.1, (groupP0 k rest).2.2)

/-- `renderSideBySide` grouping of the unnamed side-by-side variant,
starting from change counter 0. -/
def renderP0 (ops : List Op) : Str × Str × List Change :=
  groupP0 0 ops

/-- The grouping loop of `renderSideBySide` in `compare_view.js`.  Its
insert-only branch reads the block-scoped constants `escapedDelValue` and
`escapedAddValue` that are not in scope there, so reaching it throws a
`ReferenceError`; the thrown run is modelled as `none`. -/
def groupCV : Nat → List Op → Option (Str × Str × List Change)
  | _, [] => some ([], [], [])
  | k, (OpType.delete, v) :: (OpType.insert, w) :: rest =>
    (groupCV (k + 1) rest).map (fun r =>
      (delSpan (mkId k delSfx) (esc v) ++ r.1,
        addSpan (mkId k addSfx) (esc w) ++ r.2.1,
        ⟨ChKind.pair, mkId k delSfx, mkId k addSfx⟩ :: r.2.2))
  | k, (OpType.delete, v) :: rest =>
    (groupCV (k + 1) rest).map (fun r =>
      (delSpan (mkId k delSfx) (esc v) ++ r.1,
        phSpan (mkId k addSfx) ++ r.2.1,
        ⟨ChKind.delOnly, mkId k delSfx, mkId k addSfx⟩ :: r.2.2))
  | _, (OpType.insert, _) :: _ => none
  | k, (_, v) :: rest =>
    (groupCV k rest).map (fun r => (esc v ++ r.1, esc v ++ r.2.1, r.2.2))

/-- `renderSideBySide` grouping of `compare_view.js`, starting from change
counter 0. -/
def renderCV (ops : List Op) : Option (Str × Str × List Change) :=
  groupCV 0 ops

/-- The markup accumulation of `buildMergedHTML` in `merged_view.js`:
`equal` payloads verbatim, `delete` in `<del class="diff-deleted">`,
`insert` in `<ins class="diff-added">` (other types append nothing). -/
def mergeHTML : List Op → Str
  | [] => []
  | (OpType.equal, v) :: rest => v ++ mergeHTML rest
  | (OpType.delete, v) :: rest =>
    "<del class=\"diff-deleted\">".data ++ v ++ "</del>".data ++ mergeHTML rest
  | (OpType.insert, v) :: rest =>
    "<ins class=\"diff-added\">".data ++ v ++ "</ins>".data ++ mergeHTML rest
  | (_, _) :: rest => mergeHTML rest

/-- `buildMergedHTML` of `merged_view.js`. -/
def buildMergedHTML (a b : Str) : Str :=
  mergeHTML (diffTokensM a b)

/-- Number of operations a change accounts for: a paired change covers a
delete and an insert, the others cover one operation. -/
def chWeight (c : Change) : Nat :=
  match c.kind with
  | ChKind.pair => 2
  | _ => 1

/-- Total number of operations covered by a change list. -/
def chWeights (l : List Change) : Nat :=
  (l.map chWeight).sum

/-- Number of non-`equal` operations. -/
def countNonEq (ops : List Op) : Nat :=
  (ops.filter (fun o => !(decide (o.1 = OpType.equal)))).length

/-- All identifiers of a change list, in order. -/
def idsOf (l : List Change) : List Str :=
  l.flatMap (fun c => [c.delId, c.addId])

/-- Decimal reading of a digit string (inverse of `natDec`). -/
def decVal (s : Str) : Nat :=
  s.foldl (fun acc c => acc * 10 + (c.toNat - 48)) 0

/-- Default change used by `List.getD` on change lists. -/
def dummyCh : Change :=
  ⟨ChKind.pair, [], []⟩

theorem lcsF_nil_left {α : Type} [DecidableEq α] (f : Nat) (B : List α) :
    lcsF f [] B = 0 := by
  cases f with
  | zero => rfl
  | succ f => cases B <;> rfl

theorem lcsF_nil_right {α : Type} [DecidableEq α] (f : Nat) (A : List α) :
    lcsF f A [] = 0 := by
  cases f with
  | zero => rfl
  | succ f => cases A <;> rfl

theorem lcsF_stable {α : Type} [DecidableEq α] :
    ∀ (f g : Nat) (A B : List α), A.length + B.length ≤ f →
      A.length + B.length ≤ g → lcsF f A B = lcsF g A B := by
  intro f
  induction f with
  | zero =>
    intro g A B hf _
    cases A with
    | nil => simp [lcsF_nil_left]
    | cons a as => simp at hf
  | succ f ih =>
    intro g A B hf hg
    cases A with
    | nil => simp [lcsF_nil_left]
    | cons a as =>
      cases B with
      | nil => simp [lcsF_nil_right]
      | cons b bs =>
        cases g with
        | zero => simp at hg
        | succ g =>
          simp only [List.length_cons] at hf hg
          show (if a = b then lcsF f as bs + 1
              else max (lcsF f as (b :: bs)) (lcsF f (a :: as) bs)) =
            (if a = b then lcsF g as bs + 1
              else max (lcsF g as (b :: bs)) (lcsF g (a :: as) bs))
          rw [ih g as bs (by omega) (by omega),
            ih g as (b :: bs) (by simp; omega) (by simp; omega),
            ih g (a :: as) bs (by simp; omega) (by simp; omega)]

theorem lcs_nil_left {α : Type} [DecidableEq α] (B : List α) : lcs ([] : List α) B = 0 :=
  lcsF_nil_left _ _

theorem lcs_nil_right {α : Type} [DecidableEq α] (A : List α) : lcs A ([] : List α) = 0 :=
  lcsF_nil_right _ _

theorem lcs_cons {α : Type} [DecidableEq α] (a b : α) (as bs : List α) :
    lcs (a :: as) (b :: bs) =
      if a = b then lcs as bs + 1 else max (lcs as (b :: bs)) (lcs (a :: as) bs) := by
  have h1 : lcs (a :: as) (b :: bs) =
      lcsF (as.length + bs.length + 1 + 1) (a :: as) (b :: bs) := by
    unfold lcs
    congr 1
    simp
    omega
  rw [h1]
  show (if a = b then lcsF (as.length + bs.length + 1) as bs + 1
      else max (lcsF (as.length + bs.length + 1) as (b :: bs))
        (lcsF (as.length + bs.length + 1) (a :: as) bs)) = _
  rw [lcsF_stable (as.length + bs.length + 1) (as.length + bs.length) as bs
      (by omega) (by omega),
    lcsF_stable (as.length + bs.length + 1) (as.length + (b :: bs).length) as (b :: bs)
      (by simp; omega) (by simp),
    lcsF_stable (as.length + bs.length + 1) ((a :: as).length + bs.length) (a :: as) bs
      (by simp; omega) (by simp)]
  rfl

theorem backtrackMF_stable :
    ∀ (f g : Nat) (A B : List Str), A.length + B.length ≤ f →
      A.length + B.length ≤ g → backtrackMF f A B = backtrackMF g A B := by
  intro f
  induction f with
  | zero =>
    intro g A B hf _
    cases A with
    | nil =>
      cases B with
      | nil => cases g <;> rfl
      | cons b bs => simp at hf
    | cons a as => simp at hf
  | succ f ih =>
    intro g A B hf hg
    cases A with
    | nil =>
      cases B with
      | nil => cases g <;> rfl
      | cons b bs =>
        cases g with
        | zero => simp at hg
        | succ g =>
          show (OpType.insert, b) :: backtrackMF f [] bs = (OpType.insert, b) :: backtrackMF g [] bs
          rw [ih g [] bs (by simp at hf ⊢; omega) (by simp at hg ⊢; omega)]
    | cons a as =>
      cases B with
      | nil =>
        cases g with
        | zero => simp at hg
        | succ g =>
          show (OpType.delete, a) :: backtrackMF f as [] = (OpType.delete, a) :: backtrackMF g as []
          rw [ih g as [] (by simp at hf ⊢; omega) (by simp at hg ⊢; omega)]
      | cons b bs =>
        cases g with
        | zero => simp at hg
        | succ g =>
          simp only [List.length_cons] at hf hg
          show (if a = b then (OpType.equal, a) :: backtrackMF f as bs
              else if lcs (a :: as) bs ≥ lcs as (b :: bs) then
                (OpType.insert, b) :: backtrackMF f (a :: as) bs
              else (OpType.delete, a) :: backtrackMF f as (b :: bs)) =
            (if a = b then (OpType.equal, a) :: backtrackMF g as bs
              else if lcs (a :: as) bs ≥ lcs as (b :: bs) then
                (OpType.insert, b) :: backtrackMF g (a :: as) bs
              else (OpType.delete, a) :: backtrackMF g as (b :: bs))
          rw [ih g as bs (by omega) (by omega),
            ih g (a :: as) bs (by simp; omega) (by simp; omega),
            ih g as (b :: bs) (by simp; omega) (by simp; omega)]

theorem diffM_nil_nil : diffM [] [] = [] := rfl

theorem diffM_nil_cons (b : Str) (bs : List Str) :
    diffM [] (b :: bs) = (OpType.insert, b) :: diffM [] bs := by
  show backtrackMF (0 + (bs.length + 1)) [] (b :: bs) = _
  have h : 0 + (bs.length + 1) = (0 + bs.length) + 1 := by omega
  rw [h]
  show (OpType.insert, b) :: backtrackMF (0 + bs.length) [] bs = _
  rfl

theorem diffM_cons_nil (a : Str) (as : List Str) :
    diffM (a :: as) [] = (OpType.delete, a) :: diffM as [] := by
  show backtrackMF ((as.length + 1) + 0) (a :: as) [] = _
  have h : (as.length + 1) + 0 = (as.length + 0) + 1 := by omega
  rw [h]
  show (OpType.delete, a) :: backtrackMF (as.length + 0) as [] = _
  rfl

theorem diffM_cons_cons (a b : Str) (as bs : List Str) :
    diffM (a :: as) (b :: bs) =
      if a = b then (OpType.equal, a) :: diffM as bs
      else if lcs (a :: as) bs ≥ lcs as (b :: bs) then
        (OpType.insert, b) :: diffM (a :: as) bs
      else (OpType.delete, a) :: diffM as (b :: bs) := by
  show backtrackMF ((a :: as).length + (b :: bs).length) _ _ = _
  have h : (a :: as).length + (b :: bs).length = (as.length + bs.length + 1) + 1 := by
    simp
    omega
  rw [h]
  show (if a = b then (OpType.equal, a) :: backtrackMF (as.length + bs.length + 1) as bs
      else if lcs (a :: as) bs ≥ lcs as (b :: bs) then
        (OpType.insert, b) :: backtrackMF (as.length + bs.length + 1) (a :: as) bs
      else (OpType.delete, a) :: backtrackMF (as.length + bs.length + 1) as (b :: bs)) = _
  rw [backtrackMF_stable (as.length + bs.length + 1) (as.length + bs.length) as bs
      (by omega) (by omega),
    backtrackMF_stable (as.length + bs.length + 1) ((a :: as).length + bs.length) (a :: as) bs
      (by simp; omega) (by simp),
    backtrackMF_stable (as.length + bs.length + 1) (as.length + (b :: bs).length) as (b :: bs)
      (by simp; omega) (by simp)]
  rfl

theorem backHF_stable :
    ∀ (f g : Nat) (A B : List Tok), A.length + B.length ≤ f →
      A.length + B.length ≤ g → backHF f A B = backHF g A B := by
  intro f
  induction f with
  | zero =>
    intro g A B hf _
    cases A with
    | nil =>
      cases B with
      | nil => cases g <;> rfl
      | cons b bs => simp at hf
    | cons a as => simp at hf
  | succ f ih =>
    intro g A B hf hg
    cases A with
    | nil =>
      cases B with
      | nil => cases g <;> rfl
      | cons b bs =>
        cases g with
        | zero => simp at hg
        | succ g =>
          show (OpType.add, b.content) :: backHF f [] bs =
            (OpType.add, b.content) :: backHF g [] bs
          rw [ih g [] bs (by simp at hf ⊢; omega) (by simp at hg ⊢; omega)]
    | cons a as =>
      cases B with
      | nil =>
        cases g with
        | zero => simp at hg
        | succ g =>
          show (OpType.delete, a.content) :: backHF f as [] =
            (OpType.delete, a.content) :: backHF g as []
          rw [ih g as [] (by simp at hf ⊢; omega) (by simp at hg ⊢; omega)]
      | cons b bs =>
        cases g with
        | zero => simp at hg
        | succ g =>
          simp only [List.length_cons] at hf hg
          show (if a.content = b.content then (OpType.equal, b.content) :: backHF f as bs
              else if isAttributeModification a b then
                (OpType.modify, b.content) :: backHF f as bs
              else if lcsH (a :: as) bs ≥ lcsH as (b :: bs) then
                (OpType.add, b.content) :: backHF f (a :: as) bs
              else (OpType.delete, a.content) :: backHF f as (b :: bs)) =
            (if a.content = b.content then (OpType.equal, b.content) :: backHF g as bs
              else if isAttributeModification a b then
                (OpType.modify, b.content) :: backHF g as bs
              else if lcsH (a :: as) bs ≥ lcsH as (b :: bs) then
                (OpType.add, b.content) :: backHF g (a :: as) bs
              else (OpType.delete, a.content) :: backHF g as (b :: bs))
          rw [ih g as bs (by omega) (by omega),
            ih g (a :: as) bs (by simp; omega) (by simp; omega),
            ih g as (b :: bs) (by simp; omega) (by simp; omega)]

theorem diffH_cons_cons (a b : Tok) (as bs : List Tok) :
    diffH (a :: as) (b :: bs) =
      if a.content = b.content then (OpType.equal, b.content) :: diffH as bs
      else if isAttributeModification a b then
        (OpType.modify, b.content) :: diffH as bs
      else if lcsH (a :: as) bs ≥ lcsH as (b :: bs) then
        (OpType.add, b.content) :: diffH (a :: as) bs
      else (OpType.delete, a.content) :: diffH as (b :: bs) := by
  show backHF ((a :: as).length + (b :: bs).length) _ _ = _
  have h : (a :: as).length + (b :: bs).length = (as.length + bs.length + 1) + 1 := by
    simp
    omega
  rw [h]
  show (if a.content = b.content then
        (OpType.equal, b.content) :: backHF (as.length + bs.length + 1) as bs
      else if isAttributeModification a b then
        (OpType.modify, b.content) :: backHF (as.length + bs.length + 1) as bs
      else if lcsH (a :: as) bs ≥ lcsH as (b :: bs) then
        (OpType.add, b.content) :: backHF (as.length + bs.length + 1) (a :: as) bs
      else (OpType.delete, a.content) :: backHF (as.length + bs.length + 1) as (b :: bs)) = _
  rw [backHF_stable (as.length + bs.length + 1) (as.length + bs.length) as bs
      (by omega) (by omega),
    backHF_stable (as.length + bs.length + 1) ((a :: as).length + bs.length) (a :: as) bs
      (by simp; omega) (by simp),
    backHF_stable (as.length + bs.length + 1) (as.length + (b :: bs).length) as (b :: bs)
      (by simp; omega) (by simp)]
  rfl

theorem lookF_succ (f : Nat) (A B : List Str) (i j iE jE : Nat) :
    lookF (f + 1) A B i j iE jE =
      if iE < A.length ∧ jE < B.length ∧ ¬(A.getD iE [] = B.getD jE []) then
        if lcs (A.drop (iE + 1)) (B.drop j) > lcs (A.drop i) (B.drop (jE + 1)) then
          lookF f A B i j (iE + 1) jE
        else lookF f A B i j iE (jE + 1)
      else (iE, jE) := rfl

theorem lookF_ge (f : Nat) (A B : List Str) (i j : Nat) :
    ∀ iE jE, iE ≤ (lookF f A B i j iE jE).1 ∧ jE ≤ (lookF f A B i j iE jE).2 := by
  induction f with
  | zero => intro iE jE; exact ⟨Nat.le_refl _, Nat.le_refl _⟩
  | succ f ih =>
    intro iE jE
    rw [lookF_succ]
    split
    · split
      · exact ⟨Nat.le_trans (Nat.le_succ _) (ih (iE + 1) jE).1, (ih (iE + 1) jE).2⟩
      · exact ⟨(ih iE (jE + 1)).1, Nat.le_trans (Nat.le_succ _) (ih iE (jE + 1)).2⟩
    · exact ⟨Nat.le_refl _, Nat.le_refl _⟩

theorem lookF_le (f : Nat) (A B : List Str) (i j : Nat) :
    ∀ iE jE, iE ≤ A.length → jE ≤ B.length →
      (lookF f A B i j iE jE).1 ≤ A.length ∧ (lookF f A B i j iE jE).2 ≤ B.length := by
  induction f with
  | zero => intro iE jE h1 h2; exact ⟨h1, h2⟩
  | succ f ih =>
    intro iE jE h1 h2
    rw [lookF_succ]
    split
    · split
      · exact ih (iE + 1) jE (by omega) h2
      · exact ih iE (jE + 1) h1 (by omega)
    · exact ⟨h1, h2⟩

theorem lookF_none (f : Nat) (A B : List Str) (i j iE jE : Nat)
    (h : ¬(iE < A.length ∧ jE < B.length ∧ ¬(A.getD iE [] = B.getD jE []))) :
    lookF f A B i j iE jE = (iE, jE) := by
  cases f with
  | zero => rfl
  | succ f => rw [lookF_succ, if_neg h]

theorem lookF_stable :
    ∀ (f g : Nat) (A B : List Str) (i j iE jE : Nat),
      (A.length - iE) + (B.length - jE) ≤ f → (A.length - iE) + (B.length - jE) ≤ g →
      lookF f A B i j iE jE = lookF g A B i j iE jE := by
  intro f
  induction f with
  | zero =>
    intro g A B i j iE jE hf _
    have h : ¬(iE < A.length ∧ jE < B.length ∧ ¬(A.getD iE [] = B.getD jE [])) := by
      intro hc
      omega
    rw [lookF_none, lookF_none] <;> exact h
  | succ f ih =>
    intro g A B i j iE jE hf hg
    by_cases hc : iE < A.length ∧ jE < B.length ∧ ¬(A.getD iE [] = B.getD jE [])
    · cases g with
      | zero => omega
      | succ g =>
        rw [lookF_succ, lookF_succ, if_pos hc, if_pos hc]
        split
        · exact ih g A B i j (iE + 1) jE (by omega) (by omega)
        · exact ih g A B i j iE (jE + 1) (by omega) (by omega)
    · rw [lookF_none, lookF_none] <;> exact hc

theorem look_ge (A B : List Str) (i j iE jE : Nat) :
    iE ≤ (look A B i j iE jE).1 ∧ jE ≤ (look A B i j iE jE).2 :=
  lookF_ge _ A B i j iE jE

theorem look_le (A B : List Str) (i j iE jE : Nat) (h1 : iE ≤ A.length)
    (h2 : jE ≤ B.length) :
    (look A B i j iE jE).1 ≤ A.length ∧ (look A B i j iE jE).2 ≤ B.length :=
  lookF_le _ A B i j iE jE h1 h2

/-- One step of the look-ahead walk, when the walk condition holds. -/
theorem look_step (A B : List Str) (i j iE jE : Nat) (h1 : iE < A.length)
    (h2 : jE < B.length) (h3 : ¬(A.getD iE [] = B.getD jE [])) :
    look A B i j iE jE =
      if lcs (A.drop (iE + 1)) (B.drop j) > lcs (A.drop i) (B.drop (jE + 1)) then
        look A B i j (iE + 1) jE
      else look A B i j iE (jE + 1) := by
  have hlen : A.length + B.length = (A.length + B.length - 1) + 1 := by omega
  show lookF (A.length + B.length) A B i j iE jE = _
  rw [hlen, lookF_succ, if_pos ⟨h1, h2, h3⟩]
  split
  · exact lookF_stable _ _ A B i j (iE + 1) jE (by omega) (by omega)
  · exact lookF_stable _ _ A B i j iE (jE + 1) (by omega) (by omega)

theorem look_progress (A B : List Str) (i j iE jE : Nat) (h1 : iE < A.length)
    (h2 : jE < B.length) (h3 : ¬(A.getD iE [] = B.getD jE [])) :
    iE + jE < (look A B i j iE jE).1 + (look A B i j iE jE).2 := by
  rw [look_step A B i j iE jE h1 h2 h3]
  split
  · have := look_ge A B i j (iE + 1) jE
    omega
  · have := look_ge A B i j iE (jE + 1)
    omega

theorem backCF_succ (f : Nat) (A B : List Str) (i j : Nat) :
    backCF (f + 1) A B i j =
      if i < A.length ∧ j < B.length then
        if A.getD i [] = B.getD j [] then
          (OpType.equal, A.getD i []) :: backCF f A B (i + 1) (j + 1)
        else
          (if (catS ((A.drop i).take ((look A B i j i j).1 - i))).isEmpty then []
            else [(OpType.delete, catS ((A.drop i).take ((look A B i j i j).1 - i)))]) ++
            (if (catS ((B.drop j).take ((look A B i j i j).2 - j))).isEmpty then []
              else [(OpType.insert, catS ((B.drop j).take ((look A B i j i j).2 - j)))]) ++
            backCF f A B (look A B i j i j).1 (look A B i j i j).2
      else
        (if i < A.length then [(OpType.delete, catS (A.drop i))] else []) ++
          (if j < B.length then [(OpType.insert, catS (B.drop j))] else []) := rfl

theorem backCF_tail (f : Nat) (A B : List Str) (i j : Nat)
    (h : ¬(i < A.length ∧ j < B.length)) (hf : 0 < f) :
    backCF f A B i j =
      (if i < A.length then [(OpType.delete, catS (A.drop i))] else []) ++
        (if j < B.length then [(OpType.insert, catS (B.drop j))] else []) := by
  cases f with
  | zero => omega
  | succ f => rw [backCF_succ, if_neg h]

theorem backCF_stable :
    ∀ (f g : Nat) (A B : List Str) (i j : Nat),
      (A.length - i) + (B.length - j) < f → (A.length - i) + (B.length - j) < g →
      backCF f A B i j = backCF g A B i j := by
  intro f
  induction f with
  | zero => intro g A B i j hf _; omega
  | succ f ih =>
    intro g A B i j hf hg
    cases g with
    | zero => omega
    | succ g =>
      by_cases hc : i < A.length ∧ j < B.length
      · rw [backCF_succ, backCF_succ, if_pos hc, if_pos hc]
        by_cases he : A.getD i [] = B.getD j []
        · rw [if_pos he, if_pos he, ih g A B (i + 1) (j + 1) (by omega) (by omega)]
        · rw [if_neg he, if_neg he]
          have hp := look_progress A B i j i j hc.1 hc.2 he
          have hple := look_le A B i j i j (by omega) (by omega)
          rw [ih g A B (look A B i j i j).1 (look A B i j i j).2 (by omega) (by omega)]
      · rw [backCF_tail (f + 1) A B i j hc (by omega),
          backCF_tail (g + 1) A B i j hc (by omega)]

theorem DelOnly.append_left {P : Char → Prop} (t : Str) {r x : Str}
    (h : DelOnly P r x) : DelOnly P (t ++ r) (t ++ x) := by
  induction t with
  | nil => exact h
  | cons c cs ih => exact DelOnly.keep c ih

theorem DelOnly.append_del {P : Char → Prop} {t r x : Str}
    (ht : ∀ c ∈ t, P c) (h : DelOnly P r x) : DelOnly P (t ++ r) x := by
  induction t with
  | nil => exact h
  | cons c cs ih =>
    exact DelOnly.del c (ht c (List.mem_cons_self c cs))
      (ih (fun d hd => ht d (List.mem_cons_of_mem c hd)))

theorem matchTag_some {s t r : Str} (h : matchTag s = some (t, r)) :
    s = t ++ r ∧ t ≠ [] := by
  match s with
  | [] => simp [matchTag] at h
  | c :: rest =>
    rw [matchTag] at h
    by_cases hc : c = '<'
    · rw [if_pos hc] at h
      by_cases hrun : (rest.takeWhile (fun c => !(c = '>'))).isEmpty
      · rw [if_pos hrun] at h
        exact absurd h (by simp)
      · rw [if_neg hrun] at h
        revert h
        split
        · rename_i after heq
          intro h
          obtain ⟨h1, h2⟩ := Prod.mk.injEq .. ▸ Option.some.injEq .. ▸ h
          refine ⟨?_, by rw [← h1]; simp⟩
          rw [← h1, ← h2]
          simp only [List.cons_append, List.append_assoc, List.singleton_append,
            List.nil_append]
          rw [← heq, List.takeWhile_append_dropWhile]
        · intro h
          exact absurd h (by simp)
    · rw [if_neg hc] at h
      exact absurd h (by simp)

theorem matchWordVal_some {rem g after : Str} (h : matchWordVal rem = some (g, after)) :
    rem = g ++ after := by
  match rem with
  | [] => simp [matchWordVal] at h
  | [x] => simp [matchWordVal] at h
  | e :: q :: rest2 =>
    rw [matchWordVal] at h
    by_cases hq : e = '=' ∧ isQuoteCh q
    · rw [if_pos hq] at h
      revert h
      split
      · rename_i q2 aft heq
        intro h
        obtain ⟨h1, h2⟩ := Prod.mk.injEq .. ▸ Option.some.injEq .. ▸ h
        rw [← h1, ← h2]
        simp only [List.cons_append, List.append_assoc, List.singleton_append,
          List.nil_append]
        rw [← heq, List.takeWhile_append_dropWhile]
      · intro h
        exact absurd h (by simp)
    · rw [if_neg hq] at h
      exact absurd h (by simp)

theorem matchAt_some {s t r : Str} (h : matchAt s = some (t, r)) :
    s = t ++ r ∧ t ≠ [] := by
  match s with
  | [] => simp [matchAt] at h
  | c :: rest =>
    rw [matchAt] at h
    by_cases hlt : c = '<'
    · rw [if_pos hlt] at h
      exact matchTag_some h
    · rw [if_neg hlt] at h
      by_cases hw : isWordCh c
      · rw [if_pos hw] at h
        split at h
        · rename_i g after heq
          obtain ⟨h1, h2⟩ := Prod.mk.injEq .. ▸ Option.some.injEq .. ▸ h
          refine ⟨?_, by rw [← h1]; simp [List.takeWhile_cons, hw]⟩
          rw [← h1, ← h2, List.append_assoc, ← matchWordVal_some heq,
            List.takeWhile_append_dropWhile]
        · obtain ⟨h1, h2⟩ := Prod.mk.injEq .. ▸ Option.some.injEq .. ▸ h
          refine ⟨?_, by rw [← h1]; simp [List.takeWhile_cons, hw]⟩
          rw [← h1, ← h2, List.takeWhile_append_dropWhile]
      · rw [if_neg hw] at h
        by_cases hsp : isSpaceCh c
        · rw [if_pos hsp] at h
          obtain ⟨h1, h2⟩ := Prod.mk.injEq .. ▸ Option.some.injEq .. ▸ h
          refine ⟨?_, by rw [← h1]; simp [List.takeWhile_cons, hsp]⟩
          rw [← h1, ← h2, List.takeWhile_append_dropWhile]
        · rw [if_neg hsp] at h
          by_cases hgt : c = '>'
          · rw [if_pos hgt] at h
            exact absurd h (by simp)
          · rw [if_neg hgt] at h
            obtain ⟨h1, h2⟩ := Prod.mk.injEq .. ▸ Option.some.injEq .. ▸ h
            have hp : isPunctCh c := by
              simp [isPunctCh, hw, hsp, hlt, hgt]
            refine ⟨?_, by rw [← h1]; simp [List.takeWhile_cons, hp]⟩
            rw [← h1, ← h2, List.takeWhile_append_dropWhile]

theorem matchAt_none {c : Char} {rest : Str} (h : matchAt (c :: rest) = none) :
    c = '<' ∨ c = '>' := by
  rw [matchAt] at h
  by_cases hlt : c = '<'
  · exact Or.inl hlt
  · rw [if_neg hlt] at h
    by_cases hw : isWordCh c
    · rw [if_pos hw] at h
      split at h
      · exact absurd h (by simp)
      · exact absurd h (by simp)
    · rw [if_neg hw] at h
      by_cases hsp : isSpaceCh c
      · rw [if_pos hsp] at h
        exact absurd h (by simp)
      · rw [if_neg hsp] at h
        by_cases hgt : c = '>'
        · exact Or.inr hgt
        · rw [if_neg hgt] at h
          exact absurd h (by simp)

theorem matchAtH_some {s t r : Str} (h : matchAtH s = some (t, r)) :
    s = t ++ r ∧ t ≠ [] := by
  match s with
  | [] => simp [matchAtH] at h
  | c :: rest =>
    rw [matchAtH] at h
    by_cases hlt : c = '<'
    · rw [if_pos hlt] at h
      exact matchTag_some h
    · rw [if_neg hlt] at h
      obtain ⟨h1, h2⟩ := Prod.mk.injEq .. ▸ Option.some.injEq .. ▸ h
      refine ⟨?_, by rw [← h1]; simp [List.takeWhile_cons, hlt]⟩
      rw [← h1, ← h2, List.takeWhile_append_dropWhile]

theorem matchAtH_none {c : Char} {rest : Str} (h : matchAtH (c :: rest) = none) :
    c = '<' := by
  rw [matchAtH] at h
  by_cases hlt : c = '<'
  · exact hlt
  · rw [if_neg hlt] at h
    exact absurd h (by simp)

theorem scanTokF_succ (f : Nat) (c : Char) (rest : Str) :
    scanTokF (f + 1) (c :: rest) =
      match matchAt (c :: rest) with
      | some (t, r) => t :: scanTokF f r
      | none => scanTokF f rest := rfl

theorem scanTokF_delOnly :
    ∀ (f : Nat) (s : Str), s.length ≤ f →
      DelOnly (fun c => c = '<' ∨ c = '>') s (catS (scanTokF f s)) := by
  intro f
  induction f with
  | zero =>
    intro s hs
    cases s with
    | nil => exact DelOnly.nil
    | cons c rest => simp at hs
  | succ f ih =>
    intro s hs
    cases s with
    | nil => exact DelOnly.nil
    | cons c rest =>
      rw [scanTokF_succ]
      cases hm : matchAt (c :: rest) with
      | none =>
        exact DelOnly.del c (matchAt_none hm)
          (ih rest (by simp at hs; omega))
      | some p =>
        obtain ⟨t, r⟩ := p
        obtain ⟨heq, hne⟩ := matchAt_some hm
        have hlen : r.length ≤ f := by
          have h1 : (c :: rest).length = t.length + r.length := by rw [heq]; simp
          have h2 : 1 ≤ t.length := by
            cases t with
            | nil => exact absurd rfl hne
            | cons x xs => simp
          simp at h1 hs
          omega
        show DelOnly _ (c :: rest) (catS (t :: scanTokF f r))
        rw [heq]
        show DelOnly _ (t ++ r) (t ++ catS (scanTokF f r))
        exact DelOnly.append_left t (ih r hlen)

theorem scanTokF_exact :
    ∀ (f : Nat) (s : Str), s.length ≤ f → (∀ c ∈ s, ¬(c = '<' ∨ c = '>')) →
      catS (scanTokF f s) = s := by
  intro f
  induction f with
  | zero =>
    intro s hs _
    cases s with
    | nil => rfl
    | cons c rest => simp at hs
  | succ f ih =>
    intro s hs hgood
    cases s with
    | nil => rfl
    | cons c rest =>
      rw [scanTokF_succ]
      cases hm : matchAt (c :: rest) with
      | none =>
        exact absurd (matchAt_none hm) (hgood c (List.mem_cons_self c rest))
      | some p =>
        obtain ⟨t, r⟩ := p
        obtain ⟨heq, hne⟩ := matchAt_some hm
        have hlen : r.length ≤ f := by
          have h1 : (c :: rest).length = t.length + r.length := by rw [heq]; simp
          have h2 : 1 ≤ t.length := by
            cases t with
            | nil => exact absurd rfl hne
            | cons x xs => simp
          simp at h1 hs
          omega
        show t ++ catS (scanTokF f r) = c :: rest
        rw [ih r hlen (fun d hd => hgood d (by rw [heq]; exact List.mem_append_right t hd))]
        exact heq.symm

theorem scanHF_succ (f : Nat) (c : Char) (rest : Str) :
    scanHF (f + 1) (c :: rest) =
      match matchAtH (c :: rest) with
      | some (t, r) => (if hasVisible t then [mkTok t] else []) ++ scanHF f r
      | none => scanHF f rest := rfl

theorem scanHF_delOnly :
    ∀ (f : Nat) (s : Str), s.length ≤ f →
      DelOnly (fun c => c = '<' ∨ isSpaceCh c = true) s
        (catS ((scanHF f s).map Tok.content)) := by
  intro f
  induction f with
  | zero =>
    intro s hs
    cases s with
    | nil => exact DelOnly.nil
    | cons c rest => simp at hs
  | succ f ih =>
    intro s hs
    cases s with
    | nil => exact DelOnly.nil
    | cons c rest =>
      rw [scanHF_succ]
      cases hm : matchAtH (c :: rest) with
      | none =>
        exact DelOnly.del c (Or.inl (matchAtH_none hm))
          (ih rest (by simp at hs; omega))
      | some p =>
        obtain ⟨t, r⟩ := p
        obtain ⟨heq, hne⟩ := matchAtH_some hm
        have hlen : r.length ≤ f := by
          have h1 : (c :: rest).length = t.length + r.length := by rw [heq]; simp
          have h2 : 1 ≤ t.length := by
            cases t with
            | nil => exact absurd rfl hne
            | cons x xs => simp
          simp at h1 hs
          omega
        show DelOnly _ (c :: rest)
          (catS (((if hasVisible t then [mkTok t] else []) ++ scanHF f r).map Tok.content))
        by_cases hv : hasVisible t
        · rw [if_pos hv]
          show DelOnly _ (c :: rest) (catS (((mkTok t) :: scanHF f r).map Tok.content))
          rw [heq]
          show DelOnly _ (t ++ r) (t ++ catS ((scanHF f r).map Tok.content))
          exact DelOnly.append_left t (ih r hlen)
        · rw [if_neg hv]
          have hsp : ∀ d ∈ t, d = '<' ∨ isSpaceCh d = true := by
            intro d hd
            refine Or.inr ?_
            rw [hasVisible] at hv
            simp at hv
            exact hv d hd
          show DelOnly _ (c :: rest) (catS (([] ++ scanHF f r).map Tok.content))
          rw [heq, List.nil_append]
          exact DelOnly.append_del hsp (ih r hlen)

/-- Claim C1 counterexample: the word-level tokenizer drops a lone `<`
(no alternative of the regex matches it), so concatenating the tokens of
`"<"` gives `""`, not `"<"`; and `tokenizeHTML` drops the whitespace-only
text token of `" "`, so its concatenation is also not the input. -/
theorem C1_counterexample :
    ¬(catS (tokenize ['<']) = ['<']) ∧
      ¬(catS ((tokenizeHTML [' ']).map Tok.content) = [' ']) := by
  constructor
  · decide
  · decide

/-- Claim C1 (amended): concatenating the tokens of `tokenize s`, in order,
yields `s` with only `<` and `>` characters deleted, and equals `s` exactly
whenever `s` contains no `<` and no `>`; concatenating the token contents of
`tokenizeHTML s` yields `s` with only `<` characters and whitespace
characters deleted. -/
theorem C1_amended (s : Str) :
    DelOnly (fun c => c = '<' ∨ c = '>') s (catS (tokenize s)) ∧
      ((∀ c ∈ s, ¬(c = '<' ∨ c = '>')) → catS (tokenize s) = s) ∧
      DelOnly (fun c => c = '<' ∨ isSpaceCh c = true) s
        (catS ((tokenizeHTML s).map Tok.content)) :=
  ⟨scanTokF_delOnly s.length s (Nat.le_refl _),
    scanTokF_exact s.length s (Nat.le_refl _),
    scanHF_delOnly s.length s (Nat.le_refl _)⟩

/-- Witness for C1 (amended) at the concrete input `"ab c."`. -/
theorem C1_witness :
    (∀ c ∈ ("ab c.".data), ¬(c = '<' ∨ c = '>')) ∧
      catS (tokenize "ab c.".data) = "ab c.".data :=
  ⟨by decide, (C1_amended "ab c.".data).2.1 (by decide)⟩

theorem catS_append (l1 l2 : List Str) : catS (l1 ++ l2) = catS l1 ++ catS l2 := by
  induction l1 with
  | nil => rfl
  | cons t ts ih =>
    show t ++ catS (ts ++ l2) = (t ++ catS ts) ++ catS l2
    rw [ih, List.append_assoc]

theorem edPayload_cons (k : OpType) (v : Str) (rest : List Op) :
    edPayload ((k, v) :: rest) =
      if k = OpType.equal ∨ k = OpType.delete then v ++ edPayload rest
      else edPayload rest := by
  cases k <;> simp [edPayload, List.filter_cons, catS]

theorem eiPayload_cons (k : OpType) (v : Str) (rest : List Op) :
    eiPayload ((k, v) :: rest) =
      if k = OpType.equal ∨ k = OpType.insert then v ++ eiPayload rest
      else eiPayload rest := by
  cases k <;> simp [eiPayload, List.filter_cons, catS]

theorem edPayload_append (l1 l2 : List Op) :
    edPayload (l1 ++ l2) = edPayload l1 ++ edPayload l2 := by
  simp [edPayload, List.filter_append, catS_append]

theorem eiPayload_append (l1 l2 : List Op) :
    eiPayload (l1 ++ l2) = eiPayload l1 ++ eiPayload l2 := by
  simp [eiPayload, List.filter_append, catS_append]

theorem backtrackMF_coverage :
    ∀ (f : Nat) (A B : List Str), A.length + B.length ≤ f →
      edPayload (backtrackMF f A B) = catS A ∧ eiPayload (backtrackMF f A B) = catS B := by
  intro f
  induction f with
  | zero =>
    intro A B hf
    cases A with
    | nil =>
      cases B with
      | nil => exact ⟨rfl, rfl⟩
      | cons b bs => simp at hf
    | cons a as => simp at hf
  | succ f ih =>
    intro A B hf
    cases A with
    | nil =>
      cases B with
      | nil => exact ⟨rfl, rfl⟩
      | cons b bs =>
        show edPayload ((OpType.insert, b) :: backtrackMF f [] bs) = catS [] ∧
          eiPayload ((OpType.insert, b) :: backtrackMF f [] bs) = catS (b :: bs)
        obtain ⟨ihd, ihi⟩ := ih [] bs (by simp at hf ⊢; omega)
        rw [edPayload_cons, eiPayload_cons, if_neg (by simp), if_pos (by simp), ihd, ihi]
        exact ⟨rfl, rfl⟩
    | cons a as =>
      cases B with
      | nil =>
        show edPayload ((OpType.delete, a) :: backtrackMF f as []) = catS (a :: as) ∧
          eiPayload ((OpType.delete, a) :: backtrackMF f as []) = catS []
        obtain ⟨ihd, ihi⟩ := ih as [] (by simp at hf ⊢; omega)
        rw [edPayload_cons, eiPayload_cons, if_pos (by simp), if_neg (by simp), ihd, ihi]
        exact ⟨rfl, rfl⟩
      | cons b bs =>
        simp only [List.length_cons] at hf
        show edPayload (if a = b then (OpType.equal, a) :: backtrackMF f as bs
            else if lcs (a :: as) bs ≥ lcs as (b :: bs) then
              (OpType.insert, b) :: backtrackMF f (a :: as) bs
            else (OpType.delete, a) :: backtrackMF f as (b :: bs)) = catS (a :: as) ∧
          eiPayload (if a = b then (OpType.equal, a) :: backtrackMF f as bs
            else if lcs (a :: as) bs ≥ lcs as (b :: bs) then
              (OpType.insert, b) :: backtrackMF f (a :: as) bs
            else (OpType.delete, a) :: backtrackMF f as (b :: bs)) = catS (b :: bs)
        by_cases hab : a = b
        · rw [if_pos hab]
          obtain ⟨ihd, ihi⟩ := ih as bs (by omega)
          rw [edPayload_cons, eiPayload_cons, if_pos (by simp), if_pos (by simp), ihd, ihi]
          exact ⟨rfl, by rw [hab]; rfl⟩
        · rw [if_neg hab]
          by_cases hd : lcs (a :: as) bs ≥ lcs as (b :: bs)
          · rw [if_pos hd]
            obtain ⟨ihd, ihi⟩ := ih (a :: as) bs (by simp; omega)
            rw [edPayload_cons, eiPayload_cons, if_neg (by simp), if_pos (by simp), ihd, ihi]
            exact ⟨rfl, rfl⟩
          · rw [if_neg hd]
            obtain ⟨ihd, ihi⟩ := ih as (b :: bs) (by simp; omega)
            rw [edPayload_cons, eiPayload_cons, if_pos (by simp), if_neg (by simp), ihd, ihi]
            exact ⟨rfl, rfl⟩

theorem backCF_coverage :
    ∀ (f : Nat) (A B : List Str) (i j : Nat), i ≤ A.length → j ≤ B.length →
      (A.length - i) + (B.length - j) < f →
      edPayload (backCF f A B i j) = catS (A.drop i) ∧
        eiPayload (backCF f A B i j) = catS (B.drop j) := by
  intro f
  induction f with
  | zero => intro A B i j _ _ hf; omega
  | succ f ih =>
    intro A B i j hi hj hf
    by_cases hc : i < A.length ∧ j < B.length
    · rw [backCF_succ, if_pos hc]
      by_cases he : A.getD i [] = B.getD j []
      · rw [if_pos he]
        obtain ⟨ihd, ihi⟩ := ih A B (i + 1) (j + 1) (by omega) (by omega) (by omega)
        rw [edPayload_cons, eiPayload_cons, if_pos (by simp), if_pos (by simp), ihd, ihi]
        constructor
        · rw [List.drop_eq_getElem_cons hc.1, ← List.getD_eq_getElem A [] hc.1]
          rfl
        · rw [List.drop_eq_getElem_cons hc.2, ← List.getD_eq_getElem B [] hc.2, he]
          rfl
      · rw [if_neg he]
        have hp := look_progress A B i j i j hc.1 hc.2 he
        have hge := look_ge A B i j i j
        have hle := look_le A B i j i j (by omega) (by omega)
        obtain ⟨ihd, ihi⟩ := ih A B (look A B i j i j).1 (look A B i j i j).2
          (by omega) (by omega) (by omega)
        rw [edPayload_append, edPayload_append, eiPayload_append, eiPayload_append]
        have hdel : edPayload
            (if (catS ((A.drop i).take ((look A B i j i j).1 - i))).isEmpty then []
              else [(OpType.delete, catS ((A.drop i).take ((look A B i j i j).1 - i)))]) =
            catS ((A.drop i).take ((look A B i j i j).1 - i)) := by
          split
          · rename_i hemp
            simp at hemp
            rw [hemp]
            rfl
          · rw [edPayload_cons, if_pos (by simp)]
            simp [edPayload, catS]
        have hins : eiPayload
            (if (catS ((B.drop j).take ((look A B i j i j).2 - j))).isEmpty then []
              else [(OpType.insert, catS ((B.drop j).take ((look A B i j i j).2 - j)))]) =
            catS ((B.drop j).take ((look A B i j i j).2 - j)) := by
          split
          · rename_i hemp
            simp at hemp
            rw [hemp]
            rfl
          · rw [eiPayload_cons, if_pos (by simp)]
            simp [eiPayload, catS]
        have hdel0 : edPayload
            (if (catS ((B.drop j).take ((look A B i j i j).2 - j))).isEmpty then []
              else [(OpType.insert, catS ((B.drop j).take ((look A B i j i j).2 - j)))]) = [] := by
          split
          · rfl
          · rw [edPayload_cons, if_neg (by simp)]
            rfl
        have hins0 : eiPayload
            (if (catS ((A.drop i).take ((look A B i j i j).1 - i))).isEmpty then []
              else [(OpType.delete, catS ((A.drop i).take ((look A B i j i j).1 - i)))]) = [] := by
          split
          · rfl
          · rw [eiPayload_cons, if_neg (by simp)]
            rfl
        rw [hdel, hins, hdel0, hins0, ihd, ihi]
        constructor
        · rw [List.append_nil, ← catS_append]
          have hsplit : (A.drop i).take ((look A B i j i j).1 - i) ++ A.drop (look A B i j i j).1 =
              A.drop i := by
            have h1 : A.drop (look A B i j i j).1 =
                (A.drop i).drop ((look A B i j i j).1 - i) := by
              rw [List.drop_drop]
              congr 1
              omega
            rw [h1, List.take_append_drop]
          rw [hsplit]
        · rw [List.nil_append, ← catS_append]
          have hsplit : (B.drop j).take ((look A B i j i j).2 - j) ++ B.drop (look A B i j i j).2 =
              B.drop j := by
            have h1 : B.drop (look A B i j i j).2 =
                (B.drop j).drop ((look A B i j i j).2 - j) := by
              rw [List.drop_drop]
              congr 1
              omega
            rw [h1, List.take_append_drop]
          rw [hsplit]
    · rw [backCF_tail (f + 1) A B i j hc (by omega)]
      rw [edPayload_append, eiPayload_append]
      constructor
      · have h2 : edPayload (if j < B.length then [(OpType.insert, catS (B.drop j))] else []) =
            [] := by
          split
          · rw [edPayload_cons, if_neg (by simp)]
            rfl
          · rfl
        rw [h2, List.append_nil]
        split
        · rw [edPayload_cons, if_pos (by simp)]
          simp [edPayload, catS]
        · rename_i hna
          rw [List.drop_eq_nil_of_le (by omega)]
          rfl
      · have h1 : eiPayload (if i < A.length then [(OpType.delete, catS (A.drop i))] else []) =
            [] := by
          split
          · rw [eiPayload_cons, if_neg (by simp)]
            rfl
          · rfl
        rw [h1, List.nil_append]
        split
        · rw [eiPayload_cons, if_pos (by simp)]
          simp [eiPayload, catS]
        · rename_i hnb
          rw [List.drop_eq_nil_of_le (by omega)]
          rfl

/-- Claim C2 counterexample: for baseline `"<"` and current `""` the
tokenizer yields no tokens, the diff is empty, and the `equal`+`delete`
payload concatenation is `""`, not the baseline string `"<"` (both diff
variants). -/
theorem C2_counterexample :
    ¬(edPayload (diffTokensM ['<'] []) = ['<']) ∧
      ¬(edPayload (diffTokensC ['<'] []) = ['<']) := by
  constructor
  · decide
  · decide

/-- Claim C2 (amended): for every pair of input strings, concatenating the
payloads of the `equal` and `delete` operations of `diffTokens`, in order,
reproduces the concatenation of the baseline's tokens (which is the baseline
string itself whenever it has no stray `<`/`>`), and `equal`+`insert`
reproduces the concatenation of the current string's tokens; this holds for
both the merged-view and the compare-view variant. -/
theorem C2_amended (a b : Str) :
    edPayload (diffTokensM a b) = catS (tokenize a) ∧
      eiPayload (diffTokensM a b) = catS (tokenize b) ∧
      edPayload (diffTokensC a b) = catS (tokenizeCmp a) ∧
      eiPayload (diffTokensC a b) = catS (tokenizeCmp b) := by
  obtain ⟨h1, h2⟩ := backtrackMF_coverage ((tokenize a).length + (tokenize b).length)
    (tokenize a) (tokenize b) (Nat.le_refl _)
  obtain ⟨h3, h4⟩ := backCF_coverage ((tokenizeCmp a).length + (tokenizeCmp b).length + 1)
    (tokenizeCmp a) (tokenizeCmp b) 0 0 (Nat.zero_le _) (Nat.zero_le _) (by omega)
  exact ⟨h1, h2, by simpa using h3, by simpa using h4⟩

theorem diffM_nil_map : ∀ B : List Str, diffM [] B = B.map (fun t => (OpType.insert, t)) := by
  intro B
  induction B with
  | nil => rfl
  | cons b bs ih => rw [diffM_nil_cons, ih]; rfl

theorem diffM_map_nil : ∀ A : List Str, diffM A [] = A.map (fun t => (OpType.delete, t)) := by
  intro A
  induction A with
  | nil => rfl
  | cons a as ih => rw [diffM_cons_nil, ih]; rfl

theorem diffC_nil_left (B : List Str) :
    diffC [] B = if B = [] then [] else [(OpType.insert, catS B)] := by
  show backCF (([] : List Str).length + B.length + 1) [] B 0 0 = _
  rw [backCF_tail _ [] B 0 0 (by simp) (by simp)]
  cases B with
  | nil => rfl
  | cons b bs => simp

theorem diffC_nil_right (A : List Str) :
    diffC A [] = if A = [] then [] else [(OpType.delete, catS A)] := by
  show backCF (A.length + ([] : List Str).length + 1) A [] 0 0 = _
  rw [backCF_tail _ A [] 0 0 (by simp) (by simp)]
  cases A with
  | nil => rfl
  | cons a as => simp

/-- Claim C5 counterexample: for the nonempty current string `"a b"` the
merged-view variant yields three `insert` operations (one per token), not a
single covering `insert`; and for the nonempty baseline-free pair
`("", "<")` the compare-view variant yields the empty sequence (the lone `<`
produces no token), not a single `insert`. -/
theorem C5_counterexample :
    ¬("a b".data = []) ∧ ¬((diffTokensM [] "a b".data).length = 1) ∧
      ¬((['<'] : Str) = []) ∧ diffTokensC [] ['<'] = [] := by
  refine ⟨by decide, by decide, by decide, by decide⟩

/-- Claim C5 (amended): `align("", B)` in the compare-view variant is a
single `insert` covering the concatenation of `B`'s tokens when `B` has at
least one token, and empty otherwise; in the merged-view variant it is one
`insert` per token of `B`, in order; symmetrically `align(A, "")` is a
single covering `delete` (compare-view) or one `delete` per token
(merged-view); `align("", "")` is empty in both variants. -/
theorem C5_amended (a b : Str) :
    diffTokensC [] b =
        (if tokenizeCmp b = [] then [] else [(OpType.insert, catS (tokenizeCmp b))]) ∧
      diffTokensC a [] =
        (if tokenizeCmp a = [] then [] else [(OpType.delete, catS (tokenizeCmp a))]) ∧
      diffTokensM [] b = (tokenize b).map (fun t => (OpType.insert, t)) ∧
      diffTokensM a [] = (tokenize a).map (fun t => (OpType.delete, t)) ∧
      diffTokensC [] [] = [] ∧ diffTokensM [] [] = [] :=
  ⟨diffC_nil_left (tokenizeCmp b), diffC_nil_right (tokenizeCmp a),
    diffM_nil_map (tokenize b), diffM_map_nil (tokenize a), rfl, rfl⟩

theorem diffM_self : ∀ A : List Str, diffM A A = A.map (fun t => (OpType.equal, t)) := by
  intro A
  induction A with
  | nil => rfl
  | cons a as ih => rw [diffM_cons_cons, if_pos rfl, ih]; rfl

theorem backCF_self :
    ∀ (f : Nat) (A : List Str) (i : Nat), A.length - i < f →
      backCF f A A i i = (A.drop i).map (fun t => (OpType.equal, t)) := by
  intro f
  induction f with
  | zero => intro A i hf; omega
  | succ f ih =>
    intro A i hf
    by_cases hc : i < A.length
    · rw [backCF_succ, if_pos ⟨hc, hc⟩, if_pos rfl, ih A (i + 1) (by omega)]
      rw [List.drop_eq_getElem_cons hc, ← List.getD_eq_getElem A [] hc]
      rfl
    · rw [backCF_tail (f + 1) A A i i (by omega) (by omega)]
      rw [if_neg hc, if_neg hc, List.drop_eq_nil_of_le (by omega)]
      rfl

/-- Claim C9: aligning a token sequence with itself yields only `equal`
operations, one per token, in the original order — for both the merged-view
and the compare-view `diffTokens`. -/
theorem C9_identity (s : Str) :
    diffTokensM s s = (tokenize s).map (fun t => (OpType.equal, t)) ∧
      diffTokensC s s = (tokenizeCmp s).map (fun t => (OpType.equal, t)) :=
  ⟨diffM_self (tokenize s),
    backCF_self ((tokenizeCmp s).length + (tokenizeCmp s).length + 1) (tokenizeCmp s) 0
      (by omega)⟩

/-- Claim C7: in the attribute-aware variant, whenever the pair of tokens at
the cursor are both opening (non-closing) tags with the same tag name but
different content, the alignment emits a single `modify` operation and
advances both indices (instead of a delete plus an insert). -/
theorem C7_modify (a b : Tok) (as bs : List Tok) (h1 : a.isTag = true)
    (h2 : b.isTag = true) (h3 : a.isClosingTag = false) (h4 : b.isClosingTag = false)
    (h5 : a.tagName = b.tagName) (h6 : ¬(a.content = b.content)) :
    diffH (a :: as) (b :: bs) = (OpType.modify, b.content) :: diffH as bs := by
  have hmod : isAttributeModification a b = true := by
    simp [isAttributeModification, h1, h2, h3, h4, h5, h6]
  rw [diffH_cons_cons, if_neg h6, if_pos hmod]

/-- Witness for C7 at the spec's example scenario: baseline
`<img src="1.png">`, current `<img src="2.png">`. -/
theorem C7_witness :
    (mkTok "<img src=\"1.png\">".data).isTag = true ∧
      (mkTok "<img src=\"1.png\">".data).tagName = (mkTok "<img src=\"2.png\">".data).tagName ∧
      ¬((mkTok "<img src=\"1.png\">".data).content = (mkTok "<img src=\"2.png\">".data).content) ∧
      diffH [mkTok "<img src=\"1.png\">".data] [mkTok "<img src=\"2.png\">".data] =
        (OpType.modify, (mkTok "<img src=\"2.png\">".data).content) :: diffH [] [] :=
  ⟨by decide, by decide, by decide,
    C7_modify (mkTok "<img src=\"1.png\">".data) (mkTok "<img src=\"2.png\">".data) [] []
      (by decide) (by decide) (by decide) (by decide) (by decide) (by decide)⟩

/-- Claim C6 counterexample: at baseline `<img src="1.png">` and current
`<img src="2.png">` the tokens at the cursor differ and the tie-break
condition `dp[i][j+1] >= dp[i+1][j]` holds (0 >= 0), so by the claim the
alignment should advance `j` alone and emit on the insert side; the
attribute-aware variant instead emits a single `modify` and advances both
cursors. -/
theorem C6_counterexample :
    tokenizeHTML "<img src=\"1.png\">".data = [mkTok "<img src=\"1.png\">".data] ∧
      tokenizeHTML "<img src=\"2.png\">".data = [mkTok "<img src=\"2.png\">".data] ∧
      ¬((mkTok "<img src=\"1.png\">".data).content = (mkTok "<img src=\"2.png\">".data).content) ∧
      lcsH [mkTok "<img src=\"1.png\">".data] [] ≥ lcsH [] [mkTok "<img src=\"2.png\">".data] ∧
      diffHTMLTokens "<img src=\"1.png\">".data "<img src=\"2.png\">".data =
        [(OpType.modify, "<img src=\"2.png\">".data)] := by
  refine ⟨by decide, by decide, by decide, by decide, by decide⟩

/-- Claim C6 (amended): when the tokens at the cursor differ, the merged-view
variant advances `j` emitting an `insert` exactly when
`dp[i][j+1] >= dp[i+1][j]`, and otherwise advances `i` emitting a `delete`;
the attribute-aware variant does the same (with `add` as its insert side)
provided the pair is not an attribute modification — an attribute
modification instead emits one `modify` advancing both cursors; the
compare-view variant applies the rule inside a differing block with the DP
lookups anchored at the block start: at inner position `(iE, jE)` it
advances `iE` exactly when `dp[iE+1][j] > dp[i][jE+1]`, ties going to the
insert side.  Suffixes `a :: as` and `b :: bs` stand for the token suffixes
at the cursor, so `lcs (a :: as) bs` is `dp[i][j+1]` and `lcs as (b :: bs)`
is `dp[i+1][j]`. -/
theorem C6_amended :
    (∀ (a b : Str) (as bs : List Str), ¬(a = b) →
        diffM (a :: as) (b :: bs) =
          if lcs (a :: as) bs ≥ lcs as (b :: bs) then
            (OpType.insert, b) :: diffM (a :: as) bs
          else (OpType.delete, a) :: diffM as (b :: bs)) ∧
      (∀ (a b : Tok) (as bs : List Tok), ¬(a.content = b.content) →
        isAttributeModification a b = false →
        diffH (a :: as) (b :: bs) =
          if lcsH (a :: as) bs ≥ lcsH as (b :: bs) then
            (OpType.add, b.content) :: diffH (a :: as) bs
          else (OpType.delete, a.content) :: diffH as (b :: bs)) ∧
      (∀ (A B : List Str) (i j iE jE : Nat), iE < A.length → jE < B.length →
        ¬(A.getD iE [] = B.getD jE []) →
        look A B i j iE jE =
          if lcs (A.drop (iE + 1)) (B.drop j) > lcs (A.drop i) (B.drop (jE + 1)) then
            look A B i j (iE + 1) jE
          else look A B i j iE (jE + 1)) := by
  refine ⟨?_, ?_, ?_⟩
  · intro a b as bs hab
    rw [diffM_cons_cons, if_neg hab]
  · intro a b as bs hab hmod
    rw [diffH_cons_cons, if_neg hab, if_neg (by simp [hmod])]
  · intro A B i j iE jE h1 h2 h3
    exact look_step A B i j iE jE h1 h2 h3

/-- Witness for C6 (amended) at concrete one-token inputs. -/
theorem C6_witness :
    ¬(("a".data : Str) = "b".data) ∧
      diffM ["a".data] ["b".data] =
        (if lcs ["a".data] ([] : List Str) ≥ lcs ([] : List Str) ["b".data] then
          (OpType.insert, "b".data) :: diffM ["a".data] []
        else (OpType.delete, "a".data) :: diffM [] ["b".data]) ∧
      look ["a".data] ["b".data] 0 0 0 0 =
        (if lcs (["a".data].drop 1) (["b".data].drop 0) >
            lcs (["a".data].drop 0) (["b".data].drop 1) then
          look ["a".data] ["b".data] 0 0 1 0
        else look ["a".data] ["b".data] 0 0 0 1) :=
  ⟨by decide,
    C6_amended.1 "a".data "b".data [] [] (by decide),
    C6_amended.2.2 ["a".data] ["b".data] 0 0 0 0 (by decide) (by decide) (by decide)⟩

theorem replAll_append (c : Char) (r : Str) (s1 s2 : Str) :
    replAll c r (s1 ++ s2) = replAll c r s1 ++ replAll c r s2 := by
  induction s1 with
  | nil => rfl
  | cons x xs ih =>
    show (if x = c then r else [x]) ++ replAll c r (xs ++ s2) =
      ((if x = c then r else [x]) ++ replAll c r xs) ++ replAll c r s2
    rw [ih, List.append_assoc]

theorem escHead (x : Char) :
    replAll '>' gtStr (replAll '<' ltStr (replAll '&' ampStr [x])) = escChar x := by
  by_cases h1 : x = '&'
  · subst h1
    rfl
  · by_cases h2 : x = '<'
    · subst h2
      rfl
    · by_cases h3 : x = '>'
      · subst h3
        rfl
      · simp [replAll, escChar, h1, h2, h3]

theorem esc_eq_escMap (s : Str) : esc s = escMap s := by
  induction s with
  | nil => rfl
  | cons x xs ih =>
    show replAll '>' gtStr (replAll '<' ltStr (replAll '&' ampStr ([x] ++ xs))) =
      escChar x ++ escMap xs
    rw [replAll_append, replAll_append, replAll_append, escHead, ← ih]
    rfl

theorem escChar_no_angle (x : Char) : ¬('<' ∈ escChar x) ∧ ¬('>' ∈ escChar x) := by
  unfold escChar
  by_cases h1 : x = '&'
  · rw [if_pos h1]
    exact ⟨by decide, by decide⟩
  · rw [if_neg h1]
    by_cases h2 : x = '<'
    · rw [if_pos h2]
      exact ⟨by decide, by decide⟩
    · rw [if_neg h2]
      by_cases h3 : x = '>'
      · rw [if_pos h3]
        exact ⟨by decide, by decide⟩
      · rw [if_neg h3]
        constructor
        · intro hm
          rw [List.mem_singleton] at hm
          exact h2 hm.symm
        · intro hm
          rw [List.mem_singleton] at hm
          exact h3 hm.symm

theorem escMap_no_angle (s : Str) : ¬('<' ∈ escMap s) ∧ ¬('>' ∈ escMap s) := by
  induction s with
  | nil => exact ⟨by decide, by decide⟩
  | cons x xs ih =>
    show ¬('<' ∈ escChar x ++ escMap xs) ∧ ¬('>' ∈ escChar x ++ escMap xs)
    constructor
    · intro hm
      rcases List.mem_append.mp hm with h | h
      · exact (escChar_no_angle x).1 h
      · exact ih.1 h
    · intro hm
      rcases List.mem_append.mp hm with h | h
      · exact (escChar_no_angle x).2 h
      · exact ih.2 h

theorem ampSafe_escMap (s : Str) : AmpSafe (escMap s) := by
  induction s with
  | nil => exact AmpSafe.nil
  | cons x xs ih =>
    show AmpSafe (escChar x ++ escMap xs)
    by_cases h1 : x = '&'
    · subst h1
      exact AmpSafe.amp ih
    · by_cases h2 : x = '<'
      · subst h2
        exact AmpSafe.ltc ih
      · by_cases h3 : x = '>'
        · subst h3
          exact AmpSafe.gtc ih
        · have hx : escChar x = [x] := by simp [escChar, h1, h2, h3]
          rw [hx, List.singleton_append]
          exact AmpSafe.other h1 ih

theorem esc_no_lt (s : Str) : ¬('<' ∈ esc s) := by
  rw [esc_eq_escMap]
  exact (escMap_no_angle s).1

theorem esc_no_gt (s : Str) : ¬('>' ∈ esc s) := by
  rw [esc_eq_escMap]
  exact (escMap_no_angle s).2

theorem natDecF_digit :
    ∀ (f n : Nat) (c : Char), c ∈ natDecF f n → c.isDigit = true := by
  intro f
  induction f with
  | zero => intro n c hm; simp [natDecF] at hm
  | succ f ih =>
    intro n c hm
    rw [natDecF] at hm
    by_cases hn : n < 10
    · rw [if_pos hn] at hm
      rw [List.mem_singleton] at hm
      subst hm
      interval_cases n <;> decide
    · rw [if_neg hn] at hm
      rcases List.mem_append.mp hm with h | h
      · exact ih (n / 10) c h
      · rw [List.mem_singleton] at h
        subst h
        have h10 : n % 10 < 10 := Nat.mod_lt n (by omega)
        interval_cases hmod : n % 10 <;> simp_all <;> decide

theorem mkId_no_angle (k : Nat) (sfx : Str) (h : sfx = delSfx ∨ sfx = addSfx) :
    ¬('<' ∈ mkId k sfx) ∧ ¬('>' ∈ mkId k sfx) := by
  have hd : ∀ c ∈ natDec k, c.isDigit = true := fun c hc => natDecF_digit (k + 1) k c hc
  constructor
  · intro hm
    rcases List.mem_append.mp hm with hmm | hmm
    · rcases List.mem_append.mp hmm with hp | hn
      · revert hp
        decide
      · have := hd '<' hn
        simp at this
    · rcases h with rfl | rfl
      · revert hmm
        decide
      · revert hmm
        decide
  · intro hm
    rcases List.mem_append.mp hm with hmm | hmm
    · rcases List.mem_append.mp hmm with hp | hn
      · revert hp
        decide
      · have := hd '>' hn
        simp at this
    · rcases h with rfl | rfl
      · revert hmm
        decide
      · revert hmm
        decide

theorem count_delSpan (c : Char) (hc : c = '<' ∨ c = '>') (id ct : Str)
    (hid : ¬(c ∈ id)) (hct : ¬(c ∈ ct)) : List.count c (delSpan id ct) = 2 := by
  unfold delSpan
  rw [List.count_append, List.count_append, List.count_append, List.count_append,
    List.count_eq_zero.mpr hid, List.count_eq_zero.mpr hct]
  rcases hc with rfl | rfl <;> decide

theorem count_addSpan (c : Char) (hc : c = '<' ∨ c = '>') (id ct : Str)
    (hid : ¬(c ∈ id)) (hct : ¬(c ∈ ct)) : List.count c (addSpan id ct) = 2 := by
  unfold addSpan
  rw [List.count_append, List.count_append, List.count_append, List.count_append,
    List.count_eq_zero.mpr hid, List.count_eq_zero.mpr hct]
  rcases hc with rfl | rfl <;> decide

theorem count_phSpan (c : Char) (hc : c = '<' ∨ c = '>') (id : Str)
    (hid : ¬(c ∈ id)) : List.count c (phSpan id) = 2 := by
  unfold phSpan
  rw [List.count_append, List.count_append, List.count_append, List.count_append,
    List.count_eq_zero.mpr hid]
  rcases hc with rfl | rfl <;> decide

theorem count_mkId_zero (c : Char) (hc : c = '<' ∨ c = '>') (k : Nat) (sfx : Str)
    (hs : sfx = delSfx ∨ sfx = addSfx) : ¬(c ∈ mkId k sfx) := by
  rcases hc with rfl | rfl
  · exact (mkId_no_angle k sfx hs).1
  · exact (mkId_no_angle k sfx hs).2

theorem count_esc_zero (c : Char) (hc : c = '<' ∨ c = '>') (v : Str) : ¬(c ∈ esc v) := by
  rcases hc with rfl | rfl
  · exact esc_no_lt v
  · exact esc_no_gt v

theorem angle_count_del_branch (c : Char) (hc : c = '<' ∨ c = '>') (k : Nat) (v : Str)
    (rest : List Op)
    (ih1 : List.count c (groupP0 (k + 1) rest).1 = 2 * (groupP0 (k + 1) rest).2.2.length)
    (ih2 : List.count c (groupP0 (k + 1) rest).2.1 = 2 * (groupP0 (k + 1) rest).2.2.length) :
    List.count c (delSpan (mkId k delSfx) (esc v) ++ (groupP0 (k + 1) rest).1) =
        2 * ((⟨ChKind.delOnly, mkId k delSfx, mkId k addSfx⟩ : Change) ::
          (groupP0 (k + 1) rest).2.2).length ∧
      List.count c (phSpan (mkId k addSfx) ++ (groupP0 (k + 1) rest).2.1) =
        2 * ((⟨ChKind.delOnly, mkId k delSfx, mkId k addSfx⟩ : Change) ::
          (groupP0 (k + 1) rest).2.2).length := by
  constructor
  · rw [List.count_append, ih1,
      count_delSpan c hc _ _ (count_mkId_zero c hc k delSfx (Or.inl rfl))
        (count_esc_zero c hc v)]
    simp
    omega
  · rw [List.count_append, ih2,
      count_phSpan c hc _ (count_mkId_zero c hc k addSfx (Or.inr rfl))]
    simp
    omega

theorem angle_count_eq_branch (c : Char) (hc : c = '<' ∨ c = '>') (k : Nat) (v : Str)
    (rest : List Op)
    (ih1 : List.count c (groupP0 k rest).1 = 2 * (groupP0 k rest).2.2.length)
    (ih2 : List.count c (groupP0 k rest).2.1 = 2 * (groupP0 k rest).2.2.length) :
    List.count c (esc v ++ (groupP0 k rest).1) = 2 * (groupP0 k rest).2.2.length ∧
      List.count c (esc v ++ (groupP0 k rest).2.1) = 2 * (groupP0 k rest).2.2.length := by
  constructor
  · rw [List.count_append, ih1, List.count_eq_zero.mpr (count_esc_zero c hc v)]
    omega
  · rw [List.count_append, ih2, List.count_eq_zero.mpr (count_esc_zero c hc v)]
    omega

theorem groupP0_angle_count (c : Char) (hc : c = '<' ∨ c = '>') :
    ∀ (n : Nat) (ops : List Op), ops.length ≤ n → ∀ (k : Nat),
      List.count c (groupP0 k ops).1 = 2 * (groupP0 k ops).2.2.length ∧
        List.count c (groupP0 k ops).2.1 = 2 * (groupP0 k ops).2.2.length := by
  intro n
  induction n with
  | zero =>
    intro ops hn k
    cases ops with
    | nil => exact ⟨rfl, rfl⟩
    | cons o rest => simp at hn
  | succ n ih =>
    intro ops hn k
    match ops with
    | [] => exact ⟨rfl, rfl⟩
    | (OpType.delete, v) :: (OpType.insert, w) :: rest =>
      obtain ⟨ih1, ih2⟩ := ih rest (by simp at hn ⊢; omega) (k + 1)
      constructor
      · show List.count c (delSpan (mkId k delSfx) (esc v) ++ (groupP0 (k + 1) rest).1) =
          2 * (⟨ChKind.pair, mkId k delSfx, mkId k addSfx⟩ :: (groupP0 (k + 1) rest).2.2).length
        rw [List.count_append, ih1,
          count_delSpan c hc _ _ (count_mkId_zero c hc k delSfx (Or.inl rfl))
            (count_esc_zero c hc v)]
        simp
        omega
      · show List.count c (addSpan (mkId k addSfx) (esc w) ++ (groupP0 (k + 1) rest).2.1) =
          2 * (⟨ChKind.pair, mkId k delSfx, mkId k addSfx⟩ :: (groupP0 (k + 1) rest).2.2).length
        rw [List.count_append, ih2,
          count_addSpan c hc _ _ (count_mkId_zero c hc k addSfx (Or.inr rfl))
            (count_esc_zero c hc w)]
        simp
        omega
    | (OpType.delete, v) :: [] =>
      obtain ⟨ih1, ih2⟩ := ih [] (by simp) (k + 1)
      exact angle_count_del_branch c hc k v [] ih1 ih2
    | (OpType.delete, v) :: (OpType.equal, w) :: rest =>
      obtain ⟨ih1, ih2⟩ := ih ((OpType.equal, w) :: rest) (by simp at hn ⊢; omega) (k + 1)
      exact angle_count_del_branch c hc k v ((OpType.equal, w) :: rest) ih1 ih2
    | (OpType.delete, v) :: (OpType.delete, w) :: rest =>
      obtain ⟨ih1, ih2⟩ := ih ((OpType.delete, w) :: rest) (by simp at hn ⊢; omega) (k + 1)
      exact angle_count_del_branch c hc k v ((OpType.delete, w) :: rest) ih1 ih2
    | (OpType.delete, v) :: (OpType.modify, w) :: rest =>
      obtain ⟨ih1, ih2⟩ := ih ((OpType.modify, w) :: rest) (by simp at hn ⊢; omega) (k + 1)
      exact angle_count_del_branch c hc k v ((OpType.modify, w) :: rest) ih1 ih2
    | (OpType.delete, v) :: (OpType.add, w) :: rest =>
      obtain ⟨ih1, ih2⟩ := ih ((OpType.add, w) :: rest) (by simp at hn ⊢; omega) (k + 1)
      exact angle_count_del_branch c hc k v ((OpType.add, w) :: rest) ih1 ih2
    | (OpType.insert, v) :: rest =>
      obtain ⟨ih1, ih2⟩ := ih rest (by simp at hn ⊢; omega) (k + 1)
      constructor
      · show List.count c (phSpan (mkId k delSfx) ++ (groupP0 (k + 1) rest).1) =
          2 * (⟨ChKind.insOnly, mkId k delSfx, mkId k addSfx⟩ :: (groupP0 (k + 1) rest).2.2).length
        rw [List.count_append, ih1,
          count_phSpan c hc _ (count_mkId_zero c hc k delSfx (Or.inl rfl))]
        simp
        omega
      · show List.count c (addSpan (mkId k addSfx) (esc v) ++ (groupP0 (k + 1) rest).2.1) =
          2 * (⟨ChKind.insOnly, mkId k delSfx, mkId k addSfx⟩ :: (groupP0 (k + 1) rest).2.2).length
        rw [List.count_append, ih2,
          count_addSpan c hc _ _ (count_mkId_zero c hc k addSfx (Or.inr rfl))
            (count_esc_zero c hc v)]
        simp
        omega
    | (OpType.equal, v) :: rest =>
      obtain ⟨ih1, ih2⟩ := ih rest (by simp at hn ⊢; omega) k
      exact angle_count_eq_branch c hc k v rest ih1 ih2
    | (OpType.modify, v) :: rest =>
      obtain ⟨ih1, ih2⟩ := ih rest (by simp at hn ⊢; omega) k
      exact angle_count_eq_branch c hc k v rest ih1 ih2
    | (OpType.add, v) :: rest =>
      obtain ⟨ih1, ih2⟩ := ih rest (by simp at hn ⊢; omega) k
      exact angle_count_eq_branch c hc k v rest ih1 ih2

/-- Claim C3 (code bug): the grouping/rendering step of `compare_view.js`
is not total — its insert-only branch reads the out-of-scope block constants
`escapedDelValue`/`escapedAddValue` and throws a `ReferenceError`.  At
baseline `"a"` and current `"a b"` the alignment is
`[equal "a", insert " b"]`, whose grouping crashes (modelled as `none`);
the unnamed variant's fixed grouper handles the same input, producing one
insert-only change. -/
theorem C3_crash :
    renderCV (diffTokensC "a".data "a b".data) = none ∧
      (renderP0 (diffTokensC "a".data "a b".data)).2.2 =
        [⟨ChKind.insOnly, mkId 0 delSfx, mkId 0 addSfx⟩] := by
  refine ⟨by decide, by decide⟩

/-- Claim C4 counterexample: `buildMergedHTML` of `merged_view.js` inserts
operation payloads into the markup verbatim — for current string `"<p>"`
the whole payload, raw `<` and `>` included, lands between the `<ins>`
markers unescaped (while `esc` would have rewritten it). -/
theorem C4_counterexample :
    buildMergedHTML [] "<p>".data =
        "<ins class=\"diff-added\">".data ++ "<p>".data ++ "</ins>".data ∧
      '<' ∈ "<p>".data ∧ ¬(esc "<p>".data = "<p>".data) := by
  refine ⟨by decide, by decide, by decide⟩

/-- Claim C4 (amended): the side-by-side grouper escapes every payload with
`esc` before wrapping it in a marker: `esc` output contains no raw `<` or
`>` and every `&` in it begins an entity (`&amp;`, `&lt;`, `&gt;`), so the
only `<`/`>` characters in the rendered panes are the two per marker span
(their count is exactly twice the number of changes, whatever the payloads
contain); the merged-view markup builder, by contrast, inserts payloads
unescaped (see the counterexample). -/
theorem C4_amended (s : Str) (ops : List Op) :
    ¬('<' ∈ esc s) ∧ ¬('>' ∈ esc s) ∧ AmpSafe (esc s) ∧
      List.count '<' (renderP0 ops).1 = 2 * (renderP0 ops).2.2.length ∧
      List.count '>' (renderP0 ops).1 = 2 * (renderP0 ops).2.2.length ∧
      List.count '<' (renderP0 ops).2.1 = 2 * (renderP0 ops).2.2.length ∧
      List.count '>' (renderP0 ops).2.1 = 2 * (renderP0 ops).2.2.length := by
  refine ⟨esc_no_lt s, esc_no_gt s, ?_, ?_, ?_, ?_, ?_⟩
  · rw [esc_eq_escMap]
    exact ampSafe_escMap s
  · exact (groupP0_angle_count '<' (Or.inl rfl) ops.length ops (Nat.le_refl _) 0).1
  · exact (groupP0_angle_count '>' (Or.inr rfl) ops.length ops (Nat.le_refl _) 0).1
  · exact (groupP0_angle_count '<' (Or.inl rfl) ops.length ops (Nat.le_refl _) 0).2
  · exact (groupP0_angle_count '>' (Or.inr rfl) ops.length ops (Nat.le_refl _) 0).2

theorem countNonEq_cons (k : OpType) (v : Str) (rest : List Op) :
    countNonEq ((k, v) :: rest) =
      (if k = OpType.equal then 0 else 1) + countNonEq rest := by
  cases k <;> simp [countNonEq, List.filter_cons] <;> omega

theorem backCF_kinds :
    ∀ (f : Nat) (A B : List Str) (i j : Nat), ∀ o ∈ backCF f A B i j,
      o.1 = OpType.equal ∨ o.1 = OpType.delete ∨ o.1 = OpType.insert := by
  intro f
  induction f with
  | zero => intro A B i j o hm; simp [backCF] at hm
  | succ f ih =>
    intro A B i j o hm
    rw [backCF_succ] at hm
    by_cases hc : i < A.length ∧ j < B.length
    · rw [if_pos hc] at hm
      by_cases he : A.getD i [] = B.getD j []
      · rw [if_pos he] at hm
        rcases List.mem_cons.mp hm with rfl | hm2
        · exact Or.inl rfl
        · exact ih A B (i + 1) (j + 1) o hm2
      · rw [if_neg he] at hm
        rcases List.mem_append.mp hm with hm1 | hm2
        · rcases List.mem_append.mp hm1 with hm3 | hm4
          · revert hm3
            split
            · intro hx
              simp at hx
            · intro hx
              rw [List.mem_singleton] at hx
              subst hx
              exact Or.inr (Or.inl rfl)
          · revert hm4
            split
            · intro hx
              simp at hx
            · intro hx
              rw [List.mem_singleton] at hx
              subst hx
              exact Or.inr (Or.inr rfl)
        · exact ih A B _ _ o hm2
    · rw [if_neg hc] at hm
      rcases List.mem_append.mp hm with hm1 | hm2
      · revert hm1
        split
        · intro hx
          rw [List.mem_singleton] at hx
          subst hx
          exact Or.inr (Or.inl rfl)
        · intro hx
          simp at hx
      · revert hm2
        split
        · intro hx
          rw [List.mem_singleton] at hx
          subst hx
          exact Or.inr (Or.inr rfl)
        · intro hx
          simp at hx

theorem groupP0_weights :
    ∀ (n : Nat) (ops : List Op), ops.length ≤ n →
      (∀ o ∈ ops, o.1 = OpType.equal ∨ o.1 = OpType.delete ∨ o.1 = OpType.insert) →
      ∀ (k : Nat), chWeights (groupP0 k ops).2.2 = countNonEq ops := by
  intro n
  induction n with
  | zero =>
    intro ops hn _ k
    cases ops with
    | nil => rfl
    | cons o rest => simp at hn
  | succ n ih =>
    intro ops hn hk k
    match ops with
    | [] => rfl
    | (OpType.delete, v) :: (OpType.insert, w) :: rest =>
      have hr := ih rest (by simp at hn ⊢; omega)
        (fun o ho => hk o (List.mem_cons_of_mem _ (List.mem_cons_of_mem _ ho))) (k + 1)
      show chWeights (⟨ChKind.pair, mkId k delSfx, mkId k addSfx⟩ ::
        (groupP0 (k + 1) rest).2.2) = _
      rw [countNonEq_cons, countNonEq_cons]
      show 2 + chWeights (groupP0 (k + 1) rest).2.2 = _
      rw [hr]
      simp
      omega
    | (OpType.delete, v) :: [] =>
      show chWeights (⟨ChKind.delOnly, mkId k delSfx, mkId k addSfx⟩ ::
        (groupP0 (k + 1) []).2.2) = _
      rw [countNonEq_cons]
      rfl
    | (OpType.delete, v) :: (OpType.equal, w) :: rest =>
      have hr := ih ((OpType.equal, w) :: rest) (by simp at hn ⊢; omega)
        (fun o ho => hk o (List.mem_cons_of_mem _ ho)) (k + 1)
      show chWeights (⟨ChKind.delOnly, mkId k delSfx, mkId k addSfx⟩ ::
        (groupP0 (k + 1) ((OpType.equal, w) :: rest)).2.2) = _
      rw [countNonEq_cons]
      show 1 + chWeights (groupP0 (k + 1) ((OpType.equal, w) :: rest)).2.2 = _
      rw [hr]
      simp
    | (OpType.delete, v) :: (OpType.delete, w) :: rest =>
      have hr := ih ((OpType.delete, w) :: rest) (by simp at hn ⊢; omega)
        (fun o ho => hk o (List.mem_cons_of_mem _ ho)) (k + 1)
      show chWeights (⟨ChKind.delOnly, mkId k delSfx, mkId k addSfx⟩ ::
        (groupP0 (k + 1) ((OpType.delete, w) :: rest)).2.2) = _
      rw [countNonEq_cons]
      show 1 + chWeights (groupP0 (k + 1) ((OpType.delete, w) :: rest)).2.2 = _
      rw [hr]
      simp
    | (OpType.delete, v) :: (OpType.modify, w) :: rest =>
      have := hk (OpType.modify, w) (List.mem_cons_of_mem _ (List.mem_cons_self _ _))
      simp at this
    | (OpType.delete, v) :: (OpType.add, w) :: rest =>
      have := hk (OpType.add, w) (List.mem_cons_of_mem _ (List.mem_cons_self _ _))
      simp at this
    | (OpType.insert, v) :: rest =>
      have hr := ih rest (by simp at hn ⊢; omega)
        (fun o ho => hk o (List.mem_cons_of_mem _ ho)) (k + 1)
      show chWeights (⟨ChKind.insOnly, mkId k delSfx, mkId k addSfx⟩ ::
        (groupP0 (k + 1) rest).2.2) = _
      rw [countNonEq_cons]
      show 1 + chWeights (groupP0 (k + 1) rest).2.2 = _
      rw [hr]
      simp
    | (OpType.equal, v) :: rest =>
      have hr := ih rest (by simp at hn ⊢; omega)
        (fun o ho => hk o (List.mem_cons_of_mem _ ho)) k
      show chWeights (groupP0 k rest).2.2 = _
      rw [countNonEq_cons, hr]
      simp
    | (OpType.modify, v) :: rest =>
      have := hk (OpType.modify, v) (List.mem_cons_self _ _)
      simp at this
    | (OpType.add, v) :: rest =>
      have := hk (OpType.add, v) (List.mem_cons_self _ _)
      simp at this

/-- Claim C8 (code bug in `compare_view.js`): in the unnamed side-by-side
variant, every non-`equal` operation of the alignment output belongs to
exactly one change after grouping — the changes' covered-operation counts (2
for a paired change, 1 otherwise) sum to the number of non-`equal`
operations, and `equal` operations contribute to no change; the
`compare_view.js` grouper instead throws (`ReferenceError`) as soon as an
insert-only operation is grouped, so there the insert is in no change. -/
theorem C8_conservation :
    (∀ a b : Str,
        chWeights (renderP0 (diffTokensC a b)).2.2 = countNonEq (diffTokensC a b)) ∧
      renderCV [(OpType.equal, "a".data), (OpType.insert, " b".data)] = none := by
  constructor
  · intro a b
    exact groupP0_weights (diffTokensC a b).length (diffTokensC a b) (Nat.le_refl _)
      (fun o ho => backCF_kinds _ _ _ 0 0 o ho) 0
  · decide

theorem digitChar_val (m : Nat) (hm : m < 10) : (Nat.digitChar m).toNat - 48 = m := by
  interval_cases m <;> decide

theorem decVal_append_digit (xs : Str) (d : Char) :
    decVal (xs ++ [d]) = decVal xs * 10 + (d.toNat - 48) := by
  unfold decVal
  rw [List.foldl_append]
  rfl

theorem natDecF_val : ∀ (f n : Nat), n < f → decVal (natDecF f n) = n := by
  intro f
  induction f with
  | zero => intro n hn; omega
  | succ f ih =>
    intro n hn
    rw [natDecF]
    by_cases h10 : n < 10
    · rw [if_pos h10]
      show 0 * 10 + ((Nat.digitChar n).toNat - 48) = n
      rw [digitChar_val n h10]
      omega
    · rw [if_neg h10]
      rw [decVal_append_digit]
      have hdiv : n / 10 < n := Nat.div_lt_self (by omega) (by omega)
      rw [ih (n / 10) (by omega), digitChar_val (n % 10) (Nat.mod_lt n (by omega))]
      omega

theorem natDec_inj {a b : Nat} (h : natDec a = natDec b) : a = b := by
  have ha := natDecF_val (a + 1) a (by omega)
  have hb := natDecF_val (b + 1) b (by omega)
  rw [show natDecF (a + 1) a = natDec a from rfl] at ha
  rw [show natDecF (b + 1) b = natDec b from rfl] at hb
  rw [← ha, ← hb, h]

theorem mkId_inj {k1 k2 : Nat} {s1 s2 : Str} (hlen : s1.length = s2.length)
    (h : mkId k1 s1 = mkId k2 s2) : k1 = k2 ∧ s1 = s2 := by
  unfold mkId at h
  rw [List.append_assoc, List.append_assoc] at h
  have h2 : natDec k1 ++ s1 = natDec k2 ++ s2 := List.append_cancel_left h
  have hl : (natDec k1).length = (natDec k2).length := by
    have hlen2 := congrArg List.length h2
    simp at hlen2
    omega
  obtain ⟨hn, hs⟩ := List.append_inj h2 hl
  exact ⟨natDec_inj hn, hs⟩

theorem idsOf_cons (c : Change) (l : List Change) :
    idsOf (c :: l) = c.delId :: c.addId :: idsOf l := by
  simp [idsOf]

theorem idsOf_nil : idsOf [] = [] := by
  simp [idsOf]

theorem chStep_ids (c : Nat) (kd : ChKind) (chs : List Change)
    (h1 : ∀ k, k < chs.length →
      (chs.getD k dummyCh).delId = mkId (c + 1 + k) delSfx ∧
        (chs.getD k dummyCh).addId = mkId (c + 1 + k) addSfx)
    (h2 : ∀ id ∈ idsOf chs,
      ∃ k sfx, c + 1 ≤ k ∧ (sfx = delSfx ∨ sfx = addSfx) ∧ id = mkId k sfx)
    (h3 : (idsOf chs).Nodup) :
    (∀ k, k < ((⟨kd, mkId c delSfx, mkId c addSfx⟩ : Change) :: chs).length →
      ((((⟨kd, mkId c delSfx, mkId c addSfx⟩ : Change) :: chs).getD k dummyCh).delId =
          mkId (c + k) delSfx ∧
        (((⟨kd, mkId c delSfx, mkId c addSfx⟩ : Change) :: chs).getD k dummyCh).addId =
          mkId (c + k) addSfx)) ∧
      (∀ id ∈ idsOf ((⟨kd, mkId c delSfx, mkId c addSfx⟩ : Change) :: chs),
        ∃ k sfx, c ≤ k ∧ (sfx = delSfx ∨ sfx = addSfx) ∧ id = mkId k sfx) ∧
      (idsOf ((⟨kd, mkId c delSfx, mkId c addSfx⟩ : Change) :: chs)).Nodup := by
  have hmem1 : ¬(mkId c delSfx ∈ idsOf chs) := by
    intro hm
    obtain ⟨k, sfx, hk, hsfx, heq⟩ := h2 _ hm
    have hlen : delSfx.length = sfx.length := by
      rcases hsfx with rfl | rfl <;> decide
    obtain ⟨hc, _⟩ := mkId_inj hlen heq
    omega
  have hmem2 : ¬(mkId c addSfx ∈ idsOf chs) := by
    intro hm
    obtain ⟨k, sfx, hk, hsfx, heq⟩ := h2 _ hm
    have hlen : addSfx.length = sfx.length := by
      rcases hsfx with rfl | rfl <;> decide
    obtain ⟨hc, _⟩ := mkId_inj hlen heq
    omega
  refine ⟨?_, ?_, ?_⟩
  · intro k hk
    cases k with
    | zero =>
      constructor
      · show mkId c delSfx = mkId (c + 0) delSfx
        rw [Nat.add_zero]
      · show mkId c addSfx = mkId (c + 0) addSfx
        rw [Nat.add_zero]
    | succ k =>
      have hb : k < chs.length := by simp at hk; omega
      have heq : c + 1 + k = c + (k + 1) := by omega
      obtain ⟨hd, ha⟩ := h1 k hb
      rw [heq] at hd ha
      exact ⟨hd, ha⟩
  · rw [idsOf_cons]
    intro id hid
    rcases List.mem_cons.mp hid with rfl | hid2
    · exact ⟨c, delSfx, Nat.le_refl _, Or.inl rfl, rfl⟩
    · rcases List.mem_cons.mp hid2 with rfl | hid3
      · exact ⟨c, addSfx, Nat.le_refl _, Or.inr rfl, rfl⟩
      · obtain ⟨k, sfx, hk, hsfx, heq⟩ := h2 _ hid3
        exact ⟨k, sfx, by omega, hsfx, heq⟩
  · rw [idsOf_cons]
    refine List.nodup_cons.mpr ⟨?_, List.nodup_cons.mpr ⟨hmem2, h3⟩⟩
    intro hm
    rcases List.mem_cons.mp hm with hm1 | hm2
    · obtain ⟨_, hsfx⟩ := mkId_inj (by decide) hm1
      revert hsfx
      decide
    · exact hmem1 hm2

theorem groupP0_ids_all :
    ∀ (n : Nat) (ops : List Op), ops.length ≤ n → ∀ (c : Nat),
      (∀ k, k < (groupP0 c ops).2.2.length →
        (((groupP0 c ops).2.2.getD k dummyCh).delId = mkId (c + k) delSfx ∧
          ((groupP0 c ops).2.2.getD k dummyCh).addId = mkId (c + k) addSfx)) ∧
        (∀ id ∈ idsOf (groupP0 c ops).2.2,
          ∃ k sfx, c ≤ k ∧ (sfx = delSfx ∨ sfx = addSfx) ∧ id = mkId k sfx) ∧
        (idsOf (groupP0 c ops).2.2).Nodup := by
  intro n
  induction n with
  | zero =>
    intro ops hn c
    cases ops with
    | nil =>
      refine ⟨fun k hk => ?_, fun id hid => ?_, ?_⟩
      · rw [show (groupP0 c []).2.2 = [] from rfl] at hk
        simp at hk
      · rw [show (groupP0 c []).2.2 = [] from rfl, idsOf_nil] at hid
        simp at hid
      · rw [show (groupP0 c []).2.2 = [] from rfl, idsOf_nil]
        exact List.nodup_nil
    | cons o rest => simp at hn
  | succ n ih =>
    intro ops hn c
    match ops with
    | [] =>
      refine ⟨fun k hk => ?_, fun id hid => ?_, ?_⟩
      · rw [show (groupP0 c []).2.2 = [] from rfl] at hk
        simp at hk
      · rw [show (groupP0 c []).2.2 = [] from rfl, idsOf_nil] at hid
        simp at hid
      · rw [show (groupP0 c []).2.2 = [] from rfl, idsOf_nil]
        exact List.nodup_nil
    | (OpType.delete, v) :: (OpType.insert, w) :: rest =>
      obtain ⟨h1, h2, h3⟩ := ih rest (by simp at hn ⊢; omega) (c + 1)
      exact chStep_ids c ChKind.pair _ h1 h2 h3
    | (OpType.delete, v) :: [] =>
      obtain ⟨h1, h2, h3⟩ := ih [] (by simp) (c + 1)
      exact chStep_ids c ChKind.delOnly _ h1 h2 h3
    | (OpType.delete, v) :: (OpType.equal, w) :: rest =>
      obtain ⟨h1, h2, h3⟩ := ih ((OpType.equal, w) :: rest) (by simp at hn ⊢; omega) (c + 1)
      exact chStep_ids c ChKind.delOnly _ h1 h2 h3
    | (OpType.delete, v) :: (OpType.delete, w) :: rest =>
      obtain ⟨h1, h2, h3⟩ := ih ((OpType.delete, w) :: rest) (by simp at hn ⊢; omega) (c + 1)
      exact chStep_ids c ChKind.delOnly _ h1 h2 h3
    | (OpType.delete, v) :: (OpType.modify, w) :: rest =>
      obtain ⟨h1, h2, h3⟩ := ih ((OpType.modify, w) :: rest) (by simp at hn ⊢; omega) (c + 1)
      exact chStep_ids c ChKind.delOnly _ h1 h2 h3
    | (OpType.delete, v) :: (OpType.add, w) :: rest =>
      obtain ⟨h1, h2, h3⟩ := ih ((OpType.add, w) :: rest) (by simp at hn ⊢; omega) (c + 1)
      exact chStep_ids c ChKind.delOnly _ h1 h2 h3
    | (OpType.insert, v) :: rest =>
      obtain ⟨h1, h2, h3⟩ := ih rest (by simp at hn ⊢; omega) (c + 1)
      exact chStep_ids c ChKind.insOnly _ h1 h2 h3
    | (OpType.equal, v) :: rest =>
      exact ih rest (by simp at hn ⊢; omega) c
    | (OpType.modify, v) :: rest =>
      exact ih rest (by simp at hn ⊢; omega) c
    | (OpType.add, v) :: rest =>
      exact ih rest (by simp at hn ⊢; omega) c

theorem groupCV_eq :
    ∀ (n : Nat) (ops : List Op), ops.length ≤ n →
      ∀ (c : Nat) (r : Str × Str × List Change),
        groupCV c ops = some r → r = groupP0 c ops := by
  intro n
  induction n with
  | zero =>
    intro ops hn c r h
    cases ops with
    | nil =>
      have h2 := Option.some.inj h
      rw [← h2]
      rfl
    | cons o rest => simp at hn
  | succ n ih =>
    intro ops hn c r h
    match ops with
    | [] =>
      have h2 := Option.some.inj h
      rw [← h2]
      rfl
    | (OpType.delete, v) :: (OpType.insert, w) :: rest =>
      cases hrec : groupCV (c + 1) rest with
      | none =>
        rw [show groupCV c ((OpType.delete, v) :: (OpType.insert, w) :: rest) =
          (groupCV (c + 1) rest).map (fun r =>
            (delSpan (mkId c delSfx) (esc v) ++ r.1,
              addSpan (mkId c addSfx) (esc w) ++ r.2.1,
              ⟨ChKind.pair, mkId c delSfx, mkId c addSfx⟩ :: r.2.2)) from rfl, hrec] at h
        simp at h
      | some r2 =>
        rw [show groupCV c ((OpType.delete, v) :: (OpType.insert, w) :: rest) =
          (groupCV (c + 1) rest).map (fun r =>
            (delSpan (mkId c delSfx) (esc v) ++ r.1,
              addSpan (mkId c addSfx) (esc w) ++ r.2.1,
              ⟨ChKind.pair, mkId c delSfx, mkId c addSfx⟩ :: r.2.2)) from rfl, hrec] at h
        have h2 := Option.some.inj h
        rw [← h2, ih rest (by simp at hn ⊢; omega) (c + 1) r2 hrec]
        rfl
    | (OpType.delete, v) :: [] =>
      cases hrec : groupCV (c + 1) [] with
      | none => simp [groupCV] at hrec
      | some r2 =>
        rw [show groupCV c ((OpType.delete, v) :: []) =
          (groupCV (c + 1) []).map (fun r =>
            (delSpan (mkId c delSfx) (esc v) ++ r.1,
              phSpan (mkId c addSfx) ++ r.2.1,
              ⟨ChKind.delOnly, mkId c delSfx, mkId c addSfx⟩ :: r.2.2)) from rfl, hrec] at h
        have h2 := Option.some.inj h
        rw [← h2, ih [] (by simp) (c + 1) r2 hrec]
        rfl
    | (OpType.delete, v) :: (OpType.equal, w) :: rest =>
      cases hrec : groupCV (c + 1) ((OpType.equal, w) :: rest) with
      | none =>
        rw [show groupCV c ((OpType.delete, v) :: (OpType.equal, w) :: rest) =
          (groupCV (c + 1) ((OpType.equal, w) :: rest)).map (fun r =>
            (delSpan (mkId c delSfx) (esc v) ++ r.1,
              phSpan (mkId c addSfx) ++ r.2.1,
              ⟨ChKind.delOnly, mkId c delSfx, mkId c addSfx⟩ :: r.2.2)) from rfl, hrec] at h
        simp at h
      | some r2 =>
        rw [show groupCV c ((OpType.delete, v) :: (OpType.equal, w) :: rest) =
          (groupCV (c + 1) ((OpType.equal, w) :: rest)).map (fun r =>
            (delSpan (mkId c delSfx) (esc v) ++ r.1,
              phSpan (mkId c addSfx) ++ r.2.1,
              ⟨ChKind.delOnly, mkId c delSfx, mkId c addSfx⟩ :: r.2.2)) from rfl, hrec] at h
        have h2 := Option.some.inj h
        rw [← h2, ih ((OpType.equal, w) :: rest) (by simp at hn ⊢; omega) (c + 1) r2 hrec]
        rfl
    | (OpType.delete, v) :: (OpType.delete, w) :: rest =>
      cases hrec : groupCV (c + 1) ((OpType.delete, w) :: rest) with
      | none =>
        rw [show groupCV c ((OpType.delete, v) :: (OpType.delete, w) :: rest) =
          (groupCV (c + 1) ((OpType.delete, w) :: rest)).map (fun r =>
            (delSpan (mkId c delSfx) (esc v) ++ r.1,
              phSpan (mkId c addSfx) ++ r.2.1,
              ⟨ChKind.delOnly, mkId c delSfx, mkId c addSfx⟩ :: r.2.2)) from rfl, hrec] at h
        simp at h
      | some r2 =>
        rw [show groupCV c ((OpType.delete, v) :: (OpType.delete, w) :: rest) =
          (groupCV (c + 1) ((OpType.delete, w) :: rest)).map (fun r =>
            (delSpan (mkId c delSfx) (esc v) ++ r.1,
              phSpan (mkId c addSfx) ++ r.2.1,
              ⟨ChKind.delOnly, mkId c delSfx, mkId c addSfx⟩ :: r.2.2)) from rfl, hrec] at h
        have h2 := Option.some.inj h
        rw [← h2, ih ((OpType.delete, w) :: rest) (by simp at hn ⊢; omega) (c + 1) r2 hrec]
        rfl
    | (OpType.delete, v) :: (OpType.modify, w) :: rest =>
      cases hrec : groupCV (c + 1) ((OpType.modify, w) :: rest) with
      | none =>
        rw [show groupCV c ((OpType.delete, v) :: (OpType.modify, w) :: rest) =
          (groupCV (c + 1) ((OpType.modify, w) :: rest)).map (fun r =>
            (delSpan (mkId c delSfx) (esc v) ++ r.1,
              phSpan (mkId c addSfx) ++ r.2.1,
              ⟨ChKind.delOnly, mkId c delSfx, mkId c addSfx⟩ :: r.2.2)) from rfl, hrec] at h
        simp at h
      | some r2 =>
        rw [show groupCV c ((OpType.delete, v) :: (OpType.modify, w) :: rest) =
          (groupCV (c + 1) ((OpType.modify, w) :: rest)).map (fun r =>
            (delSpan (mkId c delSfx) (esc v) ++ r.1,
              phSpan (mkId c addSfx) ++ r.2.1,
              ⟨ChKind.delOnly, mkId c delSfx, mkId c addSfx⟩ :: r.2.2)) from rfl, hrec] at h
        have h2 := Option.some.inj h
        rw [← h2, ih ((OpType.modify, w) :: rest) (by simp at hn ⊢; omega) (c + 1) r2 hrec]
        rfl
    | (OpType.delete, v) :: (OpType.add, w) :: rest =>
      cases hrec : groupCV (c + 1) ((OpType.add, w) :: rest) with
      | none =>
        rw [show groupCV c ((OpType.delete, v) :: (OpType.add, w) :: rest) =
          (groupCV (c + 1) ((OpType.add, w) :: rest)).map (fun r =>
            (delSpan (mkId c delSfx) (esc v) ++ r.1,
              phSpan (mkId c addSfx) ++ r.2.1,
              ⟨ChKind.delOnly, mkId c delSfx, mkId c addSfx⟩ :: r.2.2)) from rfl, hrec] at h
        simp at h
      | some r2 =>
        rw [show groupCV c ((OpType.delete, v) :: (OpType.add, w) :: rest) =
          (groupCV (c + 1) ((OpType.add, w) :: rest)).map (fun r =>
            (delSpan (mkId c delSfx) (esc v) ++ r.1,
              phSpan (mkId c addSfx) ++ r.2.1,
              ⟨ChKind.delOnly, mkId c delSfx, mkId c addSfx⟩ :: r.2.2)) from rfl, hrec] at h
        have h2 := Option.some.inj h
        rw [← h2, ih ((OpType.add, w) :: rest) (by simp at hn ⊢; omega) (c + 1) r2 hrec]
        rfl
    | (OpType.insert, v) :: rest => exact absurd h (by simp [groupCV])
    | (OpType.equal, v) :: rest =>
      cases hrec : groupCV c rest with
      | none =>
        rw [show groupCV c ((OpType.equal, v) :: rest) =
          (groupCV c rest).map (fun r => (esc v ++ r.1, esc v ++ r.2.1, r.2.2)) from rfl,
          hrec] at h
        simp at h
      | some r2 =>
        rw [show groupCV c ((OpType.equal, v) :: rest) =
          (groupCV c rest).map (fun r => (esc v ++ r.1, esc v ++ r.2.1, r.2.2)) from rfl,
          hrec] at h
        have h2 := Option.some.inj h
        rw [← h2, ih rest (by simp at hn ⊢; omega) c r2 hrec]
        rfl
    | (OpType.modify, v) :: rest =>
      cases hrec : groupCV c rest with
      | none =>
        rw [show groupCV c ((OpType.modify, v) :: rest) =
          (groupCV c rest).map (fun r => (esc v ++ r.1, esc v ++ r.2.1, r.2.2)) from rfl,
          hrec] at h
        simp at h
      | some r2 =>
        rw [show groupCV c ((OpType.modify, v) :: rest) =
          (groupCV c rest).map (fun r => (esc v ++ r.1, esc v ++ r.2.1, r.2.2)) from rfl,
          hrec] at h
        have h2 := Option.some.inj h
        rw [← h2, ih rest (by simp at hn ⊢; omega) c r2 hrec]
        rfl
    | (OpType.add, v) :: rest =>
      cases hrec : groupCV c rest with
      | none =>
        rw [show groupCV c ((OpType.add, v) :: rest) =
          (groupCV c rest).map (fun r => (esc v ++ r.1, esc v ++ r.2.1, r.2.2)) from rfl,
          hrec] at h
        simp at h
      | some r2 =>
        rw [show groupCV c ((OpType.add, v) :: rest) =
          (groupCV c rest).map (fun r => (esc v ++ r.1, esc v ++ r.2.1, r.2.2)) from rfl,
          hrec] at h
        have h2 := Option.some.inj h
        rw [← h2, ih rest (by simp at hn ⊢; omega) c r2 hrec]
        rfl

/-- Claim C10: the k-th change (0-based, in generation order) produced by
the side-by-side grouper carries exactly the identifiers `change-k-del` and
`change-k-add`; every change — paired, delete-only or insert-only (whose
opposite side is a placeholder) — has both identifiers, and all identifiers
of one grouping are pairwise distinct.  This holds for the unnamed variant's
grouper, and for every grouping the `compare_view.js` grouper completes. -/
theorem C10_ids (ops : List Op) :
    (∀ k, k < (renderP0 ops).2.2.length →
      (((renderP0 ops).2.2.getD k dummyCh).delId = mkId k delSfx ∧
        ((renderP0 ops).2.2.getD k dummyCh).addId = mkId k addSfx)) ∧
      (idsOf (renderP0 ops).2.2).Nodup ∧
      (∀ r, renderCV ops = some r →
        ((∀ k, k < r.2.2.length →
          ((r.2.2.getD k dummyCh).delId = mkId k delSfx ∧
            (r.2.2.getD k dummyCh).addId = mkId k addSfx)) ∧
          (idsOf r.2.2).Nodup)) := by
  obtain ⟨h1, _, h3⟩ := groupP0_ids_all ops.length ops (Nat.le_refl _) 0
  have hzero : ∀ k, k < (renderP0 ops).2.2.length →
      (((renderP0 ops).2.2.getD k dummyCh).delId = mkId k delSfx ∧
        ((renderP0 ops).2.2.getD k dummyCh).addId = mkId k addSfx) := by
    intro k hk
    have hh := h1 k hk
    rw [Nat.zero_add] at hh
    exact hh
  refine ⟨hzero, h3, fun r hr => ?_⟩
  have heq := groupCV_eq ops.length ops (Nat.le_refl _) 0 r hr
  rw [heq]
  exact ⟨hzero, h3⟩

/-- Witness for C10 at concrete operation lists: a delete+insert pair
followed by an insert-only change (ids `change-0-*`, `change-1-*`), and the
compare-view grouper on a completing input. -/
theorem C10_witness :
    1 < (renderP0 [(OpType.delete, ['x']), (OpType.insert, ['y']),
        (OpType.insert, ['z'])]).2.2.length ∧
      ((renderP0 [(OpType.delete, ['x']), (OpType.insert, ['y']),
        (OpType.insert, ['z'])]).2.2.getD 1 dummyCh).delId = mkId 1 delSfx ∧
      renderCV [(OpType.delete, ['x']), (OpType.insert, ['y'])] =
        some (renderP0 [(OpType.delete, ['x']), (OpType.insert, ['y'])]) ∧
      ((renderP0 [(OpType.delete, ['x']), (OpType.insert, ['y'])]).2.2.getD 0
        dummyCh).addId = mkId 0 addSfx :=
  ⟨by decide,
    ((C10_ids [(OpType.delete, ['x']), (OpType.insert, ['y']),
      (OpType.insert, ['z'])]).1 1 (by decide)).1,
    by decide,
    (((C10_ids [(OpType.delete, ['x']), (OpType.insert, ['y'])]).2.2
      (renderP0 [(OpType.delete, ['x']), (OpType.insert, ['y'])]) (by decide)).1 0
        (by decide)).2⟩

end HtmlDiff
